import Mathlib

/-!
Verification development for the release-plan and candidate-packaging
pipeline of the `asfship` repository (`src/versioning/{plan,apply,rc,mod}.rs`).

Shallow embedding conventions:
* Rust `String`/`&str` values that are parsed character-by-character
  (commit subjects, messages, tag names) are modelled as `List Char`;
  names that are only compared for equality (package names, file names,
  manifest keys) are modelled as `String`.
* Rust machine integers are modelled as `Nat`; where overflow matters the
  arithmetic is taken modulo `2 ^ 32` (`u32`) or `2 ^ 64` (`u64`),
  matching release-mode wrapping semantics.
* `semver::Version` is modelled by its numeric `major.minor.patch` triple;
  pre-release and build metadata are not touched by any of the code under
  study (the bump code never writes them and tag rendering only uses the
  numeric triple).
* Fallible steps return `Option String` errors; file-system and network
  side effects are modelled as explicit effect traces.
-/

namespace Asfship

/-- `semver::Version`, restricted to the numeric triple (see module header). -/
structure SemVer where
  major : Nat
  minor : Nat
  patch : Nat
  deriving DecidableEq, Repr

/-- `BumpKind` from `src/versioning/plan.rs`. -/
inductive BumpKind where
  | Major
  | Minor
  | Patch
  deriving DecidableEq, Repr

/-- `CommitKind` from `src/versioning/plan.rs`. -/
inductive CommitKind where
  | Breaking
  | Feat
  | Fix
  | Perf
  | Refactor
  | Docs
  | Build
  | Chore
  | Other
  deriving DecidableEq, Repr

/-- `ChangeEntry` from `src/versioning/plan.rs`. -/
structure ChangeEntry where
  kind : CommitKind
  subject : List Char
  sha : List Char
  breaking : Bool
  deriving DecidableEq, Repr

/-- `u64` modulus for `semver::Version` component arithmetic. -/
def W64 : Nat := 2 ^ 64

/-- `decide_bump` from `src/versioning/plan.rs` lines 249-265. -/
def decide_bump (current : SemVer) (changes : List ChangeEntry) : BumpKind :=
  let breaking := changes.any (fun c => c.breaking)
  if 1 ≤ current.major then
    if breaking then BumpKind.Major
    else if changes.any (fun c => c.kind = CommitKind.Feat) then BumpKind.Minor
    else BumpKind.Patch
  else
    if breaking then BumpKind.Minor else BumpKind.Patch

/-- The version mutation performed on the chosen bump by `compute_plan`
(`src/versioning/plan.rs` lines 189-203); `+= 1` on a `u64` field wraps. -/
def applyBump (v : SemVer) : BumpKind → SemVer
  | BumpKind.Major => ⟨(v.major + 1) % W64, 0, 0⟩
  | BumpKind.Minor => ⟨v.major, (v.minor + 1) % W64, 0⟩
  | BumpKind.Patch => ⟨v.major, v.minor, (v.patch + 1) % W64⟩

/-- The new version `compute_plan` records for a crate with change list
`changes` and current version `v`. -/
def planned_new_version (v : SemVer) (changes : List ChangeEntry) : SemVer :=
  applyBump v (decide_bump v changes)

/-! ### Text utilities shared by the embedding -/

/-- Rust `str::contains(pat)` (substring search) on character lists. -/
def containsSub (pat : List Char) : List Char → Bool
  | [] => pat.isEmpty
  | c :: t => pat.isPrefixOf (c :: t) || containsSub pat t

/-- Rust `char::is_alphabetic` restricted to the ASCII range used by the
conventional-commit prefixes (`Char.isAlpha`). -/
def charAlpha (c : Char) : Bool := c.isAlpha

/-! ### Commit classification (`src/versioning/plan.rs` lines 124-145, 231-247) -/

/-- The text of the subject before the first `':'`
(Rust `subject.split(':').next()`). -/
def typeSegment (s : List Char) : List Char := s.takeWhile (fun c => c ≠ ':')

/-- The lowercased type segment consulted by `classify_commit`. -/
def typeSegmentLower (s : List Char) : List Char :=
  typeSegment (s.map Char.toLower)

/-- The breaking-subject test of `compute_plan` lines 134-141:
`subject.contains("!:") || subject.contains("(!):") ||
 subject.starts_with(alphabetic) && subject.split(':').next().ends_with('!')`. -/
def breaking_header (subject : List Char) : Bool :=
  containsSub ['!', ':'] subject ||
  containsSub ['(', '!', ')', ':'] subject ||
  ((match subject with
    | [] => false
    | c :: _ => charAlpha c) &&
   ((typeSegment subject).getLast? = some '!'))

/-- The breaking-body test of `compute_plan` line 142:
`message.to_ascii_uppercase().contains("BREAKING CHANGE:")`. -/
def breaking_body (message : List Char) : Bool :=
  containsSub "BREAKING CHANGE:".toList (message.map Char.toUpper)

/-- The breaking flag of `compute_plan` line 143. -/
def detect_breaking (subject message : List Char) : Bool :=
  breaking_header subject || breaking_body message

/-- The `match ty { ... }` arm of `classify_commit`: the guard chain of
`t.starts_with(..)` tests applied to the lowercased type segment. -/
def kind_of_segment (ty : List Char) : CommitKind :=
  if List.isPrefixOf ['f', 'e', 'a', 't'] ty then CommitKind.Feat
  else if List.isPrefixOf ['f', 'i', 'x'] ty then CommitKind.Fix
  else if List.isPrefixOf ['p', 'e', 'r', 'f'] ty then CommitKind.Perf
  else if List.isPrefixOf ['r', 'e', 'f', 'a', 'c', 't', 'o', 'r'] ty then CommitKind.Refactor
  else if List.isPrefixOf ['d', 'o', 'c', 's'] ty then CommitKind.Docs
  else if List.isPrefixOf ['b', 'u', 'i', 'l', 'd'] ty then CommitKind.Build
  else if List.isPrefixOf ['c', 'h', 'o', 'r', 'e'] ty then CommitKind.Chore
  else CommitKind.Other

/-- `classify_commit` from `src/versioning/plan.rs` lines 231-247. -/
def classify_commit (subject : List Char) (breaking : Bool) : CommitKind :=
  if breaking then CommitKind.Breaking
  else kind_of_segment (typeSegmentLower subject)

/-- The kind `compute_plan` line 145 records for a commit. -/
def commit_kind (subject message : List Char) : CommitKind :=
  classify_commit subject (detect_breaking subject message)

/-! ### Manifest model (`toml_edit` documents as consumed by `apply.rs`) -/

/-- A value inside a dependency table: a TOML string, or any other value
kind (opaque — `apply.rs` never inspects those). -/
inductive DepVal where
  | vstr (s : String)
  | vother (id : Nat)
  deriving DecidableEq, Repr

/-- One dependency entry: a bare version string, an inline table, a
sub-table, or any other item kind (opaque). -/
inductive DepItem where
  | istr (s : String)
  | iinline (kv : List (String × DepVal))
  | itable (kv : List (String × DepVal))
  | iother (id : Nat)
  deriving DecidableEq, Repr

/-- The parts of a workspace manifest consulted by `apply.rs`: the three
dependency sections and whether a `[package]` table is present.  All other
manifest content is untouched by the code under study. -/
structure Manifest where
  dependencies : List (String × DepItem)
  devDependencies : List (String × DepItem)
  buildDependencies : List (String × DepItem)
  hasPackageSection : Bool
  deriving DecidableEq, Repr

/-- `dep_tbl.contains_key("version")`. -/
def hasVersionKey (kv : List (String × DepVal)) : Bool :=
  kv.any (fun p => p.1 = "version")

/-- Key lookup in a dependency table (first match). -/
def lookupDepVal (kv : List (String × DepVal)) (k : String) :
    Option DepVal :=
  (kv.find? (fun p => p.1 = k)).map (fun p => p.2)

/-- `toml_edit` assignment `tbl["version"] = value(..)` /
`tbl.insert("version", ..)`: replaces the value of an existing key in
place, leaving every other key-value pair untouched. -/
def setVersionKey (kv : List (String × DepVal)) (newv : String) :
    List (String × DepVal) :=
  kv.map (fun p => if p.1 = "version" then (p.1, DepVal.vstr newv) else p)

/-- The per-entry update of `update_deps_in_doc` (`apply.rs` lines 82-95)
for an entry whose key is a planned package with new version `newv`:
returns the new item and whether it was modified. -/
def update_dep_item (newv : String) : DepItem → DepItem × Bool
  | DepItem.istr _ => (DepItem.istr newv, true)
  | DepItem.iinline kv =>
      if hasVersionKey kv then (DepItem.iinline (setVersionKey kv newv), true)
      else (DepItem.iinline kv, false)
  | DepItem.itable kv =>
      if hasVersionKey kv then (DepItem.itable (setVersionKey kv newv), true)
      else (DepItem.itable kv, false)
  | DepItem.iother id => (DepItem.iother id, false)

/-- The key loop of `update_deps_in_doc` over one dependency section
(`apply.rs` lines 77-97).  `changed` maps planned package names to their
new version strings (the `changed_versions` map of `apply_changes`). -/
def update_section (changed : String → Option String) :
    List (String × DepItem) → List (String × DepItem) × Bool
  | [] => ([], false)
  | (k, it) :: rest =>
      let hd :=
        match changed k with
        | none => ((k, it), false)
        | some v =>
            let r := update_dep_item v it
            ((k, r.1), r.2)
      let tl := update_section changed rest
      (hd.1 :: tl.1, hd.2 || tl.2)

/-- `update_deps_in_doc` from `apply.rs` lines 73-101: scans the sections
`dependencies`, `dev-dependencies` and `build-dependencies`. -/
def update_deps_in_doc (changed : String → Option String) (m : Manifest) :
    Manifest × Bool :=
  let d1 := update_section changed m.dependencies
  let d2 := update_section changed m.devDependencies
  let d3 := update_section changed m.buildDependencies
  ({ m with
      dependencies := d1.1
      devDependencies := d2.1
      buildDependencies := d3.1 },
   d1.2 || d2.2 || d3.2)

/-- Whether `update_deps_in_doc` counts the entry `(k, it)` as modified:
the key belongs to a planned package and the entry is a bare string or a
table form carrying a `version` key. -/
def entry_modified (changed : String → Option String) (k : String) :
    DepItem → Bool
  | DepItem.istr _ => (changed k).isSome
  | DepItem.iinline kv => (changed k).isSome && hasVersionKey kv
  | DepItem.itable kv => (changed k).isSome && hasVersionKey kv
  | DepItem.iother _ => false

/-! ### Workspace context and commit attribution
(`src/infer.rs` context consumed by `src/versioning/plan.rs`) -/

/-- `CrateInfo` as consumed by the versioning pipeline: name, current
version, package subtree root (absolute path components) and the crate's
manifest document. -/
structure CrateInfo where
  name : String
  version : SemVer
  package_root : List String
  manifest : Manifest
  deriving DecidableEq, Repr

/-- The externally supplied `InferredContext` fields used by the
pipeline.  Paths are component lists. -/
structure InferredContext where
  repo_root : List String
  repo_name : String
  crates : List CrateInfo
  main_crate : String
  deriving Repr

/-- One commit of the walked range: subject (first line), full message,
object id, and the file paths touched by its diff against its first
parent (path components relative to the repository root). -/
structure RawCommit where
  subject : List Char
  message : List Char
  sha : List Char
  paths : List (List String)
  deriving Repr

/-- Stable insertion for
`roots.sort_by(|a, b| b.0.components().count().cmp(&a.0...))`
(descending component count; Rust `sort_by` is stable, so an element is
placed before later elements of equal count). -/
def insertRootDesc (x : List String × CrateInfo) :
    List (List String × CrateInfo) → List (List String × CrateInfo)
  | [] => [x]
  | y :: ys =>
      if x.1.length < y.1.length then y :: insertRootDesc x ys
      else x :: y :: ys

/-- The sorted root list of `compute_plan` lines 108-113. -/
def sortRootsDesc : List (List String × CrateInfo) →
    List (List String × CrateInfo)
  | [] => []
  | x :: xs => insertRootDesc x (sortRootsDesc xs)

/-- `crate_for_path` from `plan.rs` lines 217-229: join the path onto the
repository root and return the first (deepest, thanks to the sort) crate
root that prefixes it. -/
def crate_for_path (repo_root : List String)
    (roots : List (List String × CrateInfo)) (path : List String) :
    Option String :=
  (roots.find? (fun r => r.1.isPrefixOf (repo_root ++ path))).map
    (fun r => r.2.name)

/-- The `ChangeEntry` recorded by `compute_plan` lines 127-145 and
169-179 for one commit (`sha` truncated to 7 characters). -/
def mkChangeEntry (c : RawCommit) : ChangeEntry :=
  let breaking := detect_breaking c.subject c.message
  { kind := classify_commit c.subject breaking
    subject := c.subject
    sha := c.sha.take 7
    breaking := breaking }

/-- The set of crate names touched by one commit's diff
(`compute_plan` lines 154-167; the `HashSet` deduplicates). -/
def touchedCrates (repo_root : List String)
    (roots : List (List String × CrateInfo)) (c : RawCommit) : List String :=
  (c.paths.filterMap (crate_for_path repo_root roots)).dedup

/-- `per_crate_changes.entry(name).or_default().push(entry)`. -/
def pushChange : List (String × List ChangeEntry) → String → ChangeEntry →
    List (String × List ChangeEntry)
  | [], n, e => [(n, [e])]
  | (k, es) :: rest, n, e =>
      if k = n then (k, es ++ [e]) :: rest
      else (k, es) :: pushChange rest n e

/-- The commit walk of `compute_plan` lines 124-180, building the
`per_crate_changes` map (commits arrive oldest-to-newest). -/
def collectChanges (repo_root : List String)
    (roots : List (List String × CrateInfo)) (commits : List RawCommit) :
    List (String × List ChangeEntry) :=
  commits.foldl
    (fun acc c =>
      (touchedCrates repo_root roots c).foldl
        (fun acc2 n => pushChange acc2 n (mkChangeEntry c)) acc)
    []

/-- `HashMap::get`. -/
def lookupChanges (m : List (String × List ChangeEntry)) (name : String) :
    Option (List ChangeEntry) :=
  (m.find? (fun p => p.1 = name)).map (fun p => p.2)

/-- `CratePlan` from `plan.rs`. -/
structure CratePlan where
  new_version : SemVer
  changes : List ChangeEntry
  deriving DecidableEq, Repr

/-- `Plan` from `plan.rs`: a map from crate name to `CratePlan` (the
`BTreeMap`'s key order is irrelevant to the claims studied here). -/
abbrev Plan := List (String × CratePlan)

/-- `BTreeMap::get`. -/
def lookupPlan (plan : Plan) (name : String) : Option CratePlan :=
  (plan.find? (fun p => p.1 = name)).map (fun p => p.2)

/-- `BTreeMap::insert`: replaces the value of an existing key, otherwise
adds the binding (key order is irrelevant to the claims studied here). -/
def insertPlan : Plan → String → CratePlan → Plan
  | [], name, cp => [(name, cp)]
  | p :: rest, name, cp =>
      if p.1 = name then (name, cp) :: rest
      else p :: insertPlan rest name cp

/-- One iteration of the plan-building loop of `compute_plan`
(lines 183-212) for crate `c`. -/
def planStep (cm : List (String × List ChangeEntry)) (plan : Plan)
    (c : CrateInfo) : Plan :=
  match lookupChanges cm c.name with
  | some changes =>
      if changes = [] then plan
      else insertPlan plan c.name
        ⟨planned_new_version c.version changes, changes⟩
  | none => plan

/-- `compute_plan` from `plan.rs` lines 94-215: attribute the walked
commits, then build the per-crate plan (lines 182-212). -/
def compute_plan (ctx : InferredContext) (commits : List RawCommit) : Plan :=
  let roots := sortRootsDesc (ctx.crates.map (fun c => (c.package_root, c)))
  let changesMap := collectChanges ctx.repo_root roots commits
  ctx.crates.foldl (planStep changesMap) []

/-- The attributed change list of a package: the per-crate view of the
`per_crate_changes` map built by the commit walk. -/
def attributedChanges (ctx : InferredContext) (commits : List RawCommit)
    (name : String) : List ChangeEntry :=
  (lookupChanges
    (collectChanges ctx.repo_root
      (sortRootsDesc (ctx.crates.map (fun c => (c.package_root, c))))
      commits)
    name).getD []

/-! ### Decimal rendering and parsing (for version strings and rc tags) -/

/-- Decimal digit characters of `n`, accumulator style with structural
fuel (`fuel = n + 1` always suffices); models `format!`'s decimal
rendering of an unsigned integer. -/
def natDigitsCore : Nat → Nat → List Char → List Char
  | 0, _, acc => acc
  | fuel + 1, n, acc =>
      let d := Char.ofNat (48 + n % 10)
      if n < 10 then d :: acc
      else natDigitsCore fuel (n / 10) (d :: acc)

def natToDigits (n : Nat) : List Char := natDigitsCore (n + 1) n []

/-- The `major.minor.patch` rendering of a version (`Display` on the
numeric triple). -/
def verChars (v : SemVer) : List Char :=
  natToDigits v.major ++ ('.' :: (natToDigits v.minor ++ ('.' :: natToDigits v.patch)))

def verString (v : SemVer) : String := String.mk (verChars v)

/-- `str::parse::<u32>` on an all-digit string: the base-10 value
(the caller checks the `u32` range separately). -/
def parseDecimal (ds : List Char) : Nat :=
  ds.foldl (fun a c => a * 10 + (c.toNat - 48)) 0

/-! ### RC tag computation (`src/versioning/rc.rs` lines 100-125) -/

/-- `u32` modulus. -/
def W32 : Nat := 2 ^ 32

/-- The literal part of the pattern
`^v<major>\.<minor>\.<patch>-rc\.(\d+)$` for a base version. -/
def rcTagStem (base : SemVer) : List Char :=
  'v' :: (verChars base ++ ('-' :: 'r' :: 'c' :: '.' :: []))

/-- Regex match plus `parse::<u32>` of `next_rc_tag` lines 106-114: a tag
name yields a candidate number iff it is the stem followed by a nonempty
digit string whose value fits in a `u32`. -/
def rcNumOf (base : SemVer) (name : List Char) : Option Nat :=
  let stem := rcTagStem base
  if stem.isPrefixOf name then
    let ds := name.drop stem.length
    if !ds.isEmpty && ds.all (fun c => c.isDigit) then
      let n := parseDecimal ds
      if n < W32 then some n else none
    else none
  else none

/-- The `max_n` fold of `next_rc_tag` lines 106-114. -/
def max_rc (tags : List (List Char)) (base : SemVer) : Nat :=
  tags.foldl
    (fun m t =>
      match rcNumOf base t with
      | some n => max m n
      | none => m)
    0

/-- The tag text `v<major>.<minor>.<patch>-rc.<n>`. -/
def renderRcTag (base : SemVer) (n : Nat) : List Char :=
  rcTagStem base ++ natToDigits n

/-- `next_rc_tag` lines 100-118; `max_n + 1` is a `u32` addition and so
wraps at `2 ^ 32`. -/
def next_rc_tag (tags : List (List Char)) (base : SemVer) :
    List Char × Nat :=
  let next := (max_rc tags base + 1) % W32
  (renderRcTag base next, next)

/-- `ensure_tag_absent` lines 120-125: errors iff `refs/tags/<tag>`
resolves, i.e. the name is among the repository's tags. -/
def ensure_tag_absent (tags : List (List Char)) (tag : List Char) :
    Option String :=
  if tag ∈ tags then some "rc tag already exists (idempotency guard)"
  else none

/-! ### Packaging from the tagged tree (`rc.rs` lines 421-533) -/

/-- One preorder entry of the tagged commit's tree walk: full path
components, whether it is a blob, and its content bytes. -/
structure TreeEntry where
  path : List String
  isBlob : Bool
  content : List Nat
  deriving DecidableEq, Repr

/-- `should_skip_artifact_path` lines 511-518. -/
def should_skip_artifact_path (p : List String) : Bool :=
  p.any (fun c => c = ".git" || c = ".github" || c = "target")

/-- `normalize_relative` lines 503-509. -/
def normalize_relative (p : List String) : List String :=
  if p = ["."] then [] else p

/-- `to_unix_path` lines 535-540. -/
def to_unix_path (p : List String) : String := String.intercalate "/" p

/-- A tar archive entry as written by `append_tar_entry` lines 520-533. -/
structure TarEntry where
  path : List String
  mode : Nat
  content : List Nat
  deriving DecidableEq, Repr

/-- A zip archive entry as written by `package_from_tree` lines 473-489. -/
structure ZipEntry where
  name : String
  perm : Nat
  content : List Nat
  deriving DecidableEq, Repr

/-- Whether the walk callback of `package_from_tree` keeps an entry:
inside the crate subtree (lines 450-452), not skipped (lines 454-456),
and a blob (line 458). -/
def keepEntry (rel : List String) (e : TreeEntry) : Bool :=
  (rel.isEmpty || rel.isPrefixOf e.path) &&
  !should_skip_artifact_path e.path && e.isBlob

/-- One step of the walk callback of `package_from_tree` (lines 441-492):
a kept blob is appended to the tar archive (mode `0o644`) and to the zip
archive (unix permissions `0o644`, unix-joined path). -/
def walkStep (rel : List String) (acc : List TarEntry × List ZipEntry)
    (e : TreeEntry) : List TarEntry × List ZipEntry :=
  if keepEntry rel e then
    (acc.1 ++ [⟨e.path, 0o644, e.content⟩],
     acc.2 ++ [⟨to_unix_path e.path, 0o644, e.content⟩])
  else acc

/-- `package_from_tree` lines 421-501: walk the tree entries in preorder
and append each kept blob to both archives.  The success path is
modelled; an entry-write failure aborts the whole function with no
archives produced. -/
def package_from_tree (tree : List TreeEntry) (crate_rel : List String) :
    List TarEntry × List ZipEntry :=
  tree.foldl (walkStep (normalize_relative crate_rel)) ([], [])

/-! ### Packaged artifacts and validation (`rc.rs` lines 219-315) -/

/-- `PackagedCrate` from `rc.rs`. -/
structure PackagedCrate where
  name : String
  files : List String
  deriving DecidableEq, Repr

/-- `Path::extension` on the portion after the last `'/'`: the text after
the last `'.'`, or `none` when there is no `'.'` or the only `'.'` leads
the file name. -/
def extCore (nm : List Char) : Option (List Char) :=
  if nm.contains '.' then
    some (nm.reverse.takeWhile (fun c => c ≠ '.')).reverse
  else none

def pathExtension (s : String) : Option String :=
  match (s.toList.reverse.takeWhile (fun c => c ≠ '/')).reverse with
  | [] => none
  | c :: rest =>
      if c = '.' then (extCore rest).map (fun l => String.mk l)
      else (extCore (c :: rest)).map (fun l => String.mk l)

/-- `BTreeSet` equality of two name collections. -/
def nameSetEq (xs ys : List String) : Bool :=
  xs.all (fun x => ys.contains x) && ys.all (fun y => xs.contains y)

/-- `validate_packaged` from `rc.rs` lines 279-315: count check against
the plan, name-set check, and per-crate presence of both archive kinds. -/
def validate_packaged (plan : Plan) (packaged : List PackagedCrate) :
    Option String :=
  if packaged.length ≠ plan.length then
    some "packaged crate count does not match plan"
  else if !nameSetEq (packaged.map (fun p => p.name))
      (plan.map (fun p => p.1)) then
    some "packaged crates do not match plan"
  else if packaged.all (fun p =>
      p.files.any (fun f => pathExtension f = some "gz") &&
      p.files.any (fun f => pathExtension f = some "zip")) then
    none
  else some "crate missing expected archive variants"

/-- The artifact base name of `package_changed_crates` lines 231-246. -/
def artifactBase (ctx : InferredContext) (c : CrateInfo) (ver : SemVer)
    (rc_n : Nat) : String :=
  if c.name = ctx.main_crate then
    "apache-" ++ ctx.repo_name ++ "-" ++ verString ver ++ "-rc" ++
      String.mk (natToDigits rc_n) ++ "-src"
  else
    "apache-" ++ ctx.repo_name ++ "-" ++ c.name ++ "-" ++ verString ver ++
      "-rc" ++ String.mk (natToDigits rc_n) ++ "-src"

/-- `package_changed_crates` lines 219-277: one `PackagedCrate` per crate
present in the plan, with both archives and their checksum sidecars. -/
def package_changed_crates (ctx : InferredContext) (plan : Plan)
    (rc_n : Nat) : List PackagedCrate :=
  (ctx.crates.map (fun c =>
    match lookupPlan plan c.name with
    | some cp =>
        let base := artifactBase ctx c cp.new_version rc_n
        [({ name := c.name
            files := [base ++ ".tar.gz", base ++ ".zip",
                      base ++ ".tar.gz.sha512", base ++ ".zip.sha512"] } :
           PackagedCrate)]
    | none => [])).flatten

/-! ### Effect traces of the pipeline
(`src/versioning/mod.rs`, `apply.rs`, `rc.rs`) -/

/-- Observable file-system / VCS / network mutations of the pipeline. -/
inductive Effect where
  | writeManifest (name : String)
  | writeChangelog (name : String)
  | writeDeps (name : String)
  | gitCommit
  | tagCreate (tag : List Char)
  | pushBranch
  | pushTag
  | createPrerelease
  | packageCrate (name : String)
  | upload (file : String)
  deriving DecidableEq, Repr

/-- The `changed_versions` map of `apply_changes` lines 15-18, as a
lookup returning rendered version strings. -/
def planChanged (plan : Plan) (name : String) : Option String :=
  (lookupPlan plan name).map (fun cp => verString cp.new_version)

/-- Effect trace of `apply_changes` (`apply.rs` lines 14-53): per planned
crate a manifest version write (skipped when the manifest has no
`[package]` table, lines 64-71) and a changelog write; then the
dependency pass over every manifest, writing back only modified ones
(lines 38-47); then one commit of everything (line 52). -/
def apply_changes_effects (ctx : InferredContext) (plan : Plan) :
    List Effect :=
  ((ctx.crates.map (fun c =>
      if (lookupPlan plan c.name).isSome then
        (if c.manifest.hasPackageSection then [Effect.writeManifest c.name]
         else []) ++ [Effect.writeChangelog c.name]
      else [])).flatten)
  ++ ((ctx.crates.map (fun c =>
        if (update_deps_in_doc (planChanged plan) c.manifest).2 then
          [Effect.writeDeps c.name]
        else [])).flatten)
  ++ [Effect.gitCommit]

/-- Effect trace of `execute_rc` (`rc.rs` lines 46-90) in `Remote` mode.
Uploads are modelled as succeeding; the retry loop is studied separately
(C9).  The `expect` on the main crate plan is modelled as an error. -/
def execute_rc_trace (tags : List (List Char)) (ctx : InferredContext)
    (plan : Plan) : List Effect × Option String :=
  match lookupPlan plan ctx.main_crate with
  | none => ([], some "main crate plan must exist before RC steps")
  | some mainPlan =>
      let tn := next_rc_tag tags mainPlan.new_version
      match ensure_tag_absent tags tn.1 with
      | some e => ([], some e)
      | none =>
          let pre := [Effect.tagCreate tn.1, Effect.pushBranch,
                      Effect.pushTag, Effect.createPrerelease]
          let packaged := package_changed_crates ctx plan tn.2
          let packEffs := packaged.map (fun p => Effect.packageCrate p.name)
          match validate_packaged plan packaged with
          | some e => (pre ++ packEffs, some e)
          | none =>
              (pre ++ packEffs ++
                ((packaged.map (fun p => p.files)).flatten).map Effect.upload,
               none)

/-- Effect trace of `run_prerelease` (`mod.rs` lines 14-48): compute the
plan, guard on the main crate, honor dry-run, apply changes, then (when a
GitHub token is present) run the rc pipeline. -/
def run_prerelease (ctx : InferredContext) (commits : List RawCommit)
    (dry_run : Bool) (has_token : Bool) (tags : List (List Char)) :
    List Effect × Option String :=
  let plan := compute_plan ctx commits
  if (lookupPlan plan ctx.main_crate).isNone then
    ([], some "main crate has no changes since base tag; aborting prerelease prep")
  else if dry_run then ([], none)
  else
    let applied := apply_changes_effects ctx plan
    if has_token then
      let rc := execute_rc_trace tags ctx plan
      (applied ++ rc.1, rc.2)
    else (applied, none)

/-! ### Asset upload with retry (`rc.rs` lines 29, 332-412) -/

/-- `UPLOAD_RETRIES` from `rc.rs` line 29. -/
def UPLOAD_RETRIES : Nat := 3

/-- Response of the network to one upload attempt. -/
inductive UpOutcome where
  | success
  | httpFail
  | transportErr
  deriving DecidableEq, Repr

/-- Observable events of the upload loop. -/
inductive UploadEv where
  | attempt (file : Nat) (n : Nat)
  | sleep (file : Nat) (ms : Nat)
  deriving DecidableEq, Repr

/-- The per-file retry loop of `upload_assets_with_retry` lines 368-409:
attempts are numbered from 1; a failure at `attempt ≥ UPLOAD_RETRIES`
aborts; otherwise sleep `200 * attempt` ms and retry.  `fuel` is a
structural bound (`UPLOAD_RETRIES` always suffices for the initial
attempt number 1). -/
def upload_one (net : Nat → UpOutcome) (i : Nat) :
    Nat → Nat → List UploadEv × Bool
  | _, 0 => ([], false)
  | attempt, fuel + 1 =>
      match net attempt with
      | UpOutcome.success => ([UploadEv.attempt i attempt], true)
      | _ =>
          if UPLOAD_RETRIES ≤ attempt then
            ([UploadEv.attempt i attempt], false)
          else
            let r := upload_one net i (attempt + 1) fuel
            (UploadEv.attempt i attempt ::
               UploadEv.sleep i (200 * attempt) :: r.1,
             r.2)

/-- The file loop of `upload_assets_with_retry` lines 354-411: files are
uploaded in order; a file that exhausts its attempts aborts the loop, so
no later file is attempted. -/
def upload_go (net : Nat → Nat → UpOutcome) :
    Nat → List String → List UploadEv × Bool
  | _, [] => ([], true)
  | i, _ :: fs =>
      let r := upload_one (net i) i 1 UPLOAD_RETRIES
      if r.2 then
        let rest := upload_go net (i + 1) fs
        (r.1 ++ rest.1, rest.2)
      else (r.1, false)

/-- `upload_assets_with_retry` lines 332-412: the network oracle `net`
gives the outcome of attempt `a` for the file at index `i`. -/
def upload_assets_with_retry (net : Nat → Nat → UpOutcome)
    (files : List String) : List UploadEv × Bool :=
  upload_go net 0 files

/-- The file index an upload event belongs to. -/
def evFile : UploadEv → Nat
  | UploadEv.attempt j _ => j
  | UploadEv.sleep j _ => j

/-- Whether an upload event is an attempt (as opposed to a backoff
sleep). -/
def isAttempt : UploadEv → Bool
  | UploadEv.attempt _ _ => true
  | UploadEv.sleep _ _ => false

/-- Number of upload attempts recorded for the file at index `i`. -/
def attemptCount (i : Nat) (tr : List UploadEv) : Nat :=
  (tr.filter (fun e => isAttempt e && evFile e = i)).length

/-- The backoff sleeps recorded for the file at index `i`, in order. -/
def sleepsFor (i : Nat) (tr : List UploadEv) : List Nat :=
  tr.filterMap
    (fun e =>
      match e with
      | UploadEv.sleep j ms => if j = i then some ms else none
      | UploadEv.attempt _ _ => none)

end Asfship

/-! ## Theorems -/

namespace Asfship

theorem containsSub_iff (pat l : List Char) :
    containsSub pat l = true ↔ pat <:+: l := by
  induction l with
  | nil =>
    simp [containsSub, List.isEmpty_iff, List.infix_nil]
  | cons c t ih =>
    simp only [containsSub, Bool.or_eq_true, List.isPrefixOf_iff_prefix, ih]
    constructor
    · rintro (h | h)
      · exact h.isInfix
      · exact List.infix_cons h
    · rintro ⟨s, u, hsu⟩
      match s with
      | [] => exact Or.inl ⟨u, by simpa using hsu⟩
      | d :: s' =>
        right
        refine ⟨s', u, ?_⟩
        simpa using congrArg List.tail hsu

theorem prefix_head_eq {a b : Char} {p q ty : List Char}
    (hp : (a :: p) <+: ty) (hq : (b :: q) <+: ty) : a = b := by
  rcases hp with ⟨t, rfl⟩
  rcases hq with ⟨u, hu⟩
  have h3 : b = a := by simpa using congrArg List.head? hu
  exact h3.symm

theorem not_prefix_of_head_ne {a b : Char} {p q ty : List Char} (hab : a ≠ b)
    (h : (a :: p) <+: ty) : ¬ ((b :: q) <+: ty) :=
  fun h2 => hab (prefix_head_eq h h2)

theorem not_feat_of_fix {ty : List Char} (h : ['f', 'i', 'x'] <+: ty) :
    ¬ (['f', 'e', 'a', 't'] <+: ty) := by
  rcases h with ⟨t, rfl⟩
  rintro ⟨u, hu⟩
  simp at hu

theorem not_fix_of_feat {ty : List Char} (h : ['f', 'e', 'a', 't'] <+: ty) :
    ¬ (['f', 'i', 'x'] <+: ty) := by
  rcases h with ⟨t, rfl⟩
  rintro ⟨u, hu⟩
  simp at hu

theorem isPrefixOf_eq_false_of_not {p ty : List Char} (h : ¬ (p <+: ty)) :
    List.isPrefixOf p ty = false := by
  rw [Bool.eq_false_iff]
  intro hc
  exact h (List.isPrefixOf_iff_prefix.mp hc)

theorem kos_eq_feat_iff (ty : List Char) :
    kind_of_segment ty = CommitKind.Feat ↔ ['f', 'e', 'a', 't'] <+: ty := by
  constructor
  · intro h
    unfold kind_of_segment at h
    split_ifs at h with h1 h2 h3 h4 h5 h6 h7 <;>
      simp_all [List.isPrefixOf_iff_prefix]
  · intro h
    simp [kind_of_segment, List.isPrefixOf_iff_prefix.mpr h]

theorem kos_eq_fix_iff (ty : List Char) :
    kind_of_segment ty = CommitKind.Fix ↔ ['f', 'i', 'x'] <+: ty := by
  constructor
  · intro h
    unfold kind_of_segment at h
    split_ifs at h with h1 h2 h3 h4 h5 h6 h7 <;>
      simp_all [List.isPrefixOf_iff_prefix]
  · intro h
    simp [kind_of_segment, List.isPrefixOf_iff_prefix.mpr h,
      isPrefixOf_eq_false_of_not (not_feat_of_fix h)]

theorem kos_eq_perf_iff (ty : List Char) :
    kind_of_segment ty = CommitKind.Perf ↔ ['p', 'e', 'r', 'f'] <+: ty := by
  constructor
  · intro h
    unfold kind_of_segment at h
    split_ifs at h with h1 h2 h3 h4 h5 h6 h7 <;>
      simp_all [List.isPrefixOf_iff_prefix]
  · intro h
    have e1 : List.isPrefixOf ['f', 'e', 'a', 't'] ty = false :=
      isPrefixOf_eq_false_of_not (not_prefix_of_head_ne (show 'p' ≠ 'f' by decide) h)
    have e2 : List.isPrefixOf ['f', 'i', 'x'] ty = false :=
      isPrefixOf_eq_false_of_not (not_prefix_of_head_ne (show 'p' ≠ 'f' by decide) h)
    simp [kind_of_segment, List.isPrefixOf_iff_prefix.mpr h, e1, e2]

theorem kos_eq_refactor_iff (ty : List Char) :
    kind_of_segment ty = CommitKind.Refactor ↔
      ['r', 'e', 'f', 'a', 'c', 't', 'o', 'r'] <+: ty := by
  constructor
  · intro h
    unfold kind_of_segment at h
    split_ifs at h with h1 h2 h3 h4 h5 h6 h7 <;>
      simp_all [List.isPrefixOf_iff_prefix]
  · intro h
    simp [kind_of_segment,
      List.isPrefixOf_iff_prefix.mpr h,
      isPrefixOf_eq_false_of_not (not_prefix_of_head_ne (show 'r' ≠ 'f' by decide) h),
      isPrefixOf_eq_false_of_not (not_prefix_of_head_ne (show 'r' ≠ 'p' by decide) h)]

theorem kos_eq_docs_iff (ty : List Char) :
    kind_of_segment ty = CommitKind.Docs ↔ ['d', 'o', 'c', 's'] <+: ty := by
  constructor
  · intro h
    unfold kind_of_segment at h
    split_ifs at h with h1 h2 h3 h4 h5 h6 h7 <;>
      simp_all [List.isPrefixOf_iff_prefix]
  · intro h
    simp [kind_of_segment,
      List.isPrefixOf_iff_prefix.mpr h,
      isPrefixOf_eq_false_of_not (not_prefix_of_head_ne (show 'd' ≠ 'f' by decide) h),
      isPrefixOf_eq_false_of_not (not_prefix_of_head_ne (show 'd' ≠ 'p' by decide) h),
      isPrefixOf_eq_false_of_not (not_prefix_of_head_ne (show 'd' ≠ 'r' by decide) h)]

theorem kos_eq_build_iff (ty : List Char) :
    kind_of_segment ty = CommitKind.Build ↔ ['b', 'u', 'i', 'l', 'd'] <+: ty := by
  constructor
  · intro h
    unfold kind_of_segment at h
    split_ifs at h with h1 h2 h3 h4 h5 h6 h7 <;>
      simp_all [List.isPrefixOf_iff_prefix]
  · intro h
    simp [kind_of_segment,
      List.isPrefixOf_iff_prefix.mpr h,
      isPrefixOf_eq_false_of_not (not_prefix_of_head_ne (show 'b' ≠ 'f' by decide) h),
      isPrefixOf_eq_false_of_not (not_prefix_of_head_ne (show 'b' ≠ 'p' by decide) h),
      isPrefixOf_eq_false_of_not (not_prefix_of_head_ne (show 'b' ≠ 'r' by decide) h),
      isPrefixOf_eq_false_of_not (not_prefix_of_head_ne (show 'b' ≠ 'd' by decide) h)]

theorem kos_eq_chore_iff (ty : List Char) :
    kind_of_segment ty = CommitKind.Chore ↔ ['c', 'h', 'o', 'r', 'e'] <+: ty := by
  constructor
  · intro h
    unfold kind_of_segment at h
    split_ifs at h with h1 h2 h3 h4 h5 h6 h7 <;>
      simp_all [List.isPrefixOf_iff_prefix]
  · intro h
    simp [kind_of_segment,
      List.isPrefixOf_iff_prefix.mpr h,
      isPrefixOf_eq_false_of_not (not_prefix_of_head_ne (show 'c' ≠ 'f' by decide) h),
      isPrefixOf_eq_false_of_not (not_prefix_of_head_ne (show 'c' ≠ 'p' by decide) h),
      isPrefixOf_eq_false_of_not (not_prefix_of_head_ne (show 'c' ≠ 'r' by decide) h),
      isPrefixOf_eq_false_of_not (not_prefix_of_head_ne (show 'c' ≠ 'd' by decide) h),
      isPrefixOf_eq_false_of_not (not_prefix_of_head_ne (show 'c' ≠ 'b' by decide) h)]

theorem kos_eq_other_iff (ty : List Char) :
    kind_of_segment ty = CommitKind.Other ↔
      (¬ (['f', 'e', 'a', 't'] <+: ty) ∧ ¬ (['f', 'i', 'x'] <+: ty) ∧
       ¬ (['p', 'e', 'r', 'f'] <+: ty) ∧
       ¬ (['r', 'e', 'f', 'a', 'c', 't', 'o', 'r'] <+: ty) ∧
       ¬ (['d', 'o', 'c', 's'] <+: ty) ∧ ¬ (['b', 'u', 'i', 'l', 'd'] <+: ty) ∧
       ¬ (['c', 'h', 'o', 'r', 'e'] <+: ty)) := by
  constructor
  · intro h
    unfold kind_of_segment at h
    split_ifs at h with h1 h2 h3 h4 h5 h6 h7 <;>
      simp_all [List.isPrefixOf_iff_prefix]
  · rintro ⟨n1, n2, n3, n4, n5, n6, n7⟩
    simp [kind_of_segment, isPrefixOf_eq_false_of_not n1,
      isPrefixOf_eq_false_of_not n2, isPrefixOf_eq_false_of_not n3,
      isPrefixOf_eq_false_of_not n4, isPrefixOf_eq_false_of_not n5,
      isPrefixOf_eq_false_of_not n6, isPrefixOf_eq_false_of_not n7]

theorem kos_ne_breaking (ty : List Char) :
    kind_of_segment ty ≠ CommitKind.Breaking := by
  unfold kind_of_segment
  split_ifs <;> simp

/-- C4: breaking detection and commit classification.  A commit is marked
breaking exactly when its subject contains one of the `!` marker forms
(`"!:"` anywhere, the scoped form `"(!):"`, or an alphabetic-initial
subject whose type prefix — the text before the first colon — ends in
`'!'`) or its uppercased message contains `"BREAKING CHANGE:"`; the kind
is `Breaking` exactly when the breaking flag is set, and otherwise is
determined by `starts_with` tests on the lowercased type prefix, with
unmatched subjects classified `Other`. -/
theorem c4_commit_classification (s m : List Char) :
    (detect_breaking s m = true ↔
      ((['!', ':'] <:+: s) ∨ (['(', '!', ')', ':'] <:+: s) ∨
       ((∃ c cs, s = c :: cs ∧ charAlpha c = true) ∧
        (typeSegment s).getLast? = some '!') ∨
       ("BREAKING CHANGE:".toList <:+: m.map Char.toUpper))) ∧
    (commit_kind s m = CommitKind.Breaking ↔ detect_breaking s m = true) ∧
    (detect_breaking s m = false →
      ((commit_kind s m = CommitKind.Feat ↔
          ['f', 'e', 'a', 't'] <+: typeSegmentLower s) ∧
       (commit_kind s m = CommitKind.Fix ↔
          ['f', 'i', 'x'] <+: typeSegmentLower s) ∧
       (commit_kind s m = CommitKind.Perf ↔
          ['p', 'e', 'r', 'f'] <+: typeSegmentLower s) ∧
       (commit_kind s m = CommitKind.Refactor ↔
          ['r', 'e', 'f', 'a', 'c', 't', 'o', 'r'] <+: typeSegmentLower s) ∧
       (commit_kind s m = CommitKind.Docs ↔
          ['d', 'o', 'c', 's'] <+: typeSegmentLower s) ∧
       (commit_kind s m = CommitKind.Build ↔
          ['b', 'u', 'i', 'l', 'd'] <+: typeSegmentLower s) ∧
       (commit_kind s m = CommitKind.Chore ↔
          ['c', 'h', 'o', 'r', 'e'] <+: typeSegmentLower s) ∧
       (commit_kind s m = CommitKind.Other ↔
         (¬ (['f', 'e', 'a', 't'] <+: typeSegmentLower s) ∧
          ¬ (['f', 'i', 'x'] <+: typeSegmentLower s) ∧
          ¬ (['p', 'e', 'r', 'f'] <+: typeSegmentLower s) ∧
          ¬ (['r', 'e', 'f', 'a', 'c', 't', 'o', 'r'] <+: typeSegmentLower s) ∧
          ¬ (['d', 'o', 'c', 's'] <+: typeSegmentLower s) ∧
          ¬ (['b', 'u', 'i', 'l', 'd'] <+: typeSegmentLower s) ∧
          ¬ (['c', 'h', 'o', 'r', 'e'] <+: typeSegmentLower s))))) := by
  refine ⟨?_, ?_, ?_⟩
  · cases s with
    | nil =>
      simp [detect_breaking, breaking_header, breaking_body, containsSub,
        containsSub_iff, List.infix_nil, typeSegment]
    | cons c t =>
      simp only [detect_breaking, breaking_header, breaking_body,
        Bool.or_eq_true, Bool.and_eq_true, containsSub_iff, decide_eq_true_eq]
      constructor
      · rintro (((h | h) | ⟨ha, hl⟩) | h)
        · exact Or.inl h
        · exact Or.inr (Or.inl h)
        · exact Or.inr (Or.inr (Or.inl ⟨⟨c, t, rfl, ha⟩, hl⟩))
        · exact Or.inr (Or.inr (Or.inr h))
      · rintro (h | h | ⟨⟨d, cs, hdc, ha⟩, hl⟩ | h)
        · exact Or.inl (Or.inl (Or.inl h))
        · exact Or.inl (Or.inl (Or.inr h))
        · cases hdc
          exact Or.inl (Or.inr ⟨ha, hl⟩)
        · exact Or.inr h
  · cases hb : detect_breaking s m with
    | true => simp [commit_kind, classify_commit, hb]
    | false =>
      simp only [commit_kind, classify_commit, hb, if_neg Bool.false_ne_true]
      exact ⟨fun h => absurd h (kos_ne_breaking _), fun h => absurd h (by simp)⟩
  · intro hb
    have hck : commit_kind s m = kind_of_segment (typeSegmentLower s) := by
      simp [commit_kind, classify_commit, hb]
    rw [hck]
    exact ⟨kos_eq_feat_iff _, kos_eq_fix_iff _, kos_eq_perf_iff _,
      kos_eq_refactor_iff _, kos_eq_docs_iff _, kos_eq_build_iff _,
      kos_eq_chore_iff _, kos_eq_other_iff _⟩

/-- Witness for `c4_commit_classification`: the subject `feat!: x`
is detected as breaking and classified `Breaking`. -/
theorem c4_commit_classification_witness :
    detect_breaking "feat!: x".toList [] = true ∧
    commit_kind "feat!: x".toList [] = CommitKind.Breaking := by
  refine ⟨by decide, ?_⟩
  exact (c4_commit_classification "feat!: x".toList []).2.1.mpr (by decide)

theorem lookupChanges_nil (k : String) :
    lookupChanges [] k = none := rfl

theorem lookupChanges_cons (a : String) (b : List ChangeEntry)
    (rest : List (String × List ChangeEntry)) (k : String) :
    lookupChanges ((a, b) :: rest) k =
      if a = k then some b else lookupChanges rest k := by
  by_cases h : a = k <;> simp [lookupChanges, List.find?_cons, h]

theorem lookupChanges_pushChange (m : List (String × List ChangeEntry))
    (n k : String) (e : ChangeEntry) :
    lookupChanges (pushChange m n e) k =
      if k = n then some ((lookupChanges m n).getD [] ++ [e])
      else lookupChanges m k := by
  induction m with
  | nil =>
    by_cases h : k = n
    · subst h
      simp [pushChange, lookupChanges_cons, lookupChanges_nil]
    · have h2 : ¬ n = k := fun hh => h hh.symm
      simp [pushChange, lookupChanges_cons, lookupChanges_nil, h, h2]
  | cons p rest ih =>
    obtain ⟨a, b⟩ := p
    by_cases han : a = n
    · subst han
      by_cases hak : k = a
      · subst hak
        simp [pushChange, lookupChanges_cons]
      · have h2 : ¬ a = k := fun hh => hak hh.symm
        simp [pushChange, lookupChanges_cons, hak, h2]
    · by_cases hak : a = k
      · subst hak
        simp [pushChange, lookupChanges_cons, han]
      · simp [pushChange, lookupChanges_cons, han, hak, ih]

theorem mem_insertRootDesc (x r : List String × CrateInfo)
    (l : List (List String × CrateInfo)) :
    r ∈ insertRootDesc x l ↔ r = x ∨ r ∈ l := by
  induction l with
  | nil => simp [insertRootDesc]
  | cons y ys ih =>
    by_cases h : x.1.length < y.1.length <;>
      simp [insertRootDesc, h, ih] <;> tauto

theorem mem_sortRootsDesc (r : List String × CrateInfo)
    (l : List (List String × CrateInfo)) :
    r ∈ sortRootsDesc l ↔ r ∈ l := by
  induction l with
  | nil => simp [sortRootsDesc]
  | cons x xs ih => simp [sortRootsDesc, mem_insertRootDesc, ih]

theorem crate_for_path_name (root : List String)
    (roots : List (List String × CrateInfo)) (path : List String) (k : String)
    (h : crate_for_path root roots path = some k) :
    ∃ r ∈ roots, r.2.name = k := by
  unfold crate_for_path at h
  obtain ⟨r, hf, hrk⟩ := Option.map_eq_some'.mp h
  exact ⟨r, List.mem_of_find?_eq_some hf, hrk⟩

theorem touchedCrates_name (root : List String)
    (roots : List (List String × CrateInfo)) (c : RawCommit) (k : String)
    (h : k ∈ touchedCrates root roots c) :
    ∃ r ∈ roots, r.2.name = k := by
  unfold touchedCrates at h
  rw [List.mem_dedup, List.mem_filterMap] at h
  obtain ⟨p, _, hp⟩ := h
  exact crate_for_path_name root roots p k hp

theorem lookup_push_fold (ns : List String)
    (acc : List (String × List ChangeEntry)) (e : ChangeEntry) (k : String)
    (h : (lookupChanges (ns.foldl (fun a n => pushChange a n e) acc) k).isSome
          = true) :
    (lookupChanges acc k).isSome = true ∨ k ∈ ns := by
  induction ns generalizing acc with
  | nil => exact Or.inl h
  | cons n ns ih =>
    simp only [List.foldl_cons] at h
    rcases ih (pushChange acc n e) h with h2 | h2
    · rw [lookupChanges_pushChange] at h2
      by_cases hk : k = n
      · exact Or.inr (by simp [hk])
      · rw [if_neg hk] at h2
        exact Or.inl h2
    · exact Or.inr (List.mem_cons_of_mem n h2)

theorem collect_fold_key (root : List String)
    (roots : List (List String × CrateInfo)) (commits : List RawCommit)
    (acc : List (String × List ChangeEntry)) (k : String)
    (h : (lookupChanges
           (commits.foldl
             (fun a c =>
               (touchedCrates root roots c).foldl
                 (fun a2 n => pushChange a2 n (mkChangeEntry c)) a)
             acc) k).isSome = true) :
    (lookupChanges acc k).isSome = true ∨ ∃ r ∈ roots, r.2.name = k := by
  induction commits generalizing acc with
  | nil => exact Or.inl h
  | cons c cs ih =>
    simp only [List.foldl_cons] at h
    rcases ih _ h with h2 | h2
    · rcases lookup_push_fold _ _ _ _ h2 with h3 | h3
      · exact Or.inl h3
      · exact Or.inr (touchedCrates_name _ _ _ _ h3)
    · exact Or.inr h2

theorem collectChanges_key (root : List String)
    (roots : List (List String × CrateInfo)) (commits : List RawCommit)
    (k : String)
    (h : (lookupChanges (collectChanges root roots commits) k).isSome = true) :
    ∃ r ∈ roots, r.2.name = k := by
  unfold collectChanges at h
  rcases collect_fold_key root roots commits [] k h with h2 | h2
  · rw [lookupChanges_nil] at h2
    simp at h2
  · exact h2

theorem lookupPlan_nil (k : String) : lookupPlan [] k = none := rfl

theorem lookupPlan_cons (a : String) (cp : CratePlan) (rest : Plan)
    (k : String) :
    lookupPlan ((a, cp) :: rest) k =
      if a = k then some cp else lookupPlan rest k := by
  by_cases h : a = k <;> simp [lookupPlan, List.find?_cons, h]

theorem lookupPlan_insertPlan (plan : Plan) (k : String) (cp : CratePlan)
    (k' : String) :
    lookupPlan (insertPlan plan k cp) k' =
      if k = k' then some cp else lookupPlan plan k' := by
  induction plan with
  | nil =>
    by_cases h : k = k' <;>
      simp [insertPlan, lookupPlan_cons, lookupPlan_nil, h]
  | cons p rest ih =>
    obtain ⟨a, b⟩ := p
    by_cases hak : a = k
    · subst hak
      by_cases hk' : a = k' <;> simp [insertPlan, lookupPlan_cons, hk']
    · by_cases hk' : a = k'
      · subst hk'
        have h2 : ¬ k = a := fun hh => hak hh.symm
        simp [insertPlan, lookupPlan_cons, hak, h2]
      · simp [insertPlan, lookupPlan_cons, hak, hk', ih]

theorem plan_fold_mem (cm : List (String × List ChangeEntry))
    (crates : List CrateInfo) (plan0 : Plan) (name : String) :
    (lookupPlan (crates.foldl (planStep cm) plan0) name).isSome = true ↔
      (lookupPlan plan0 name).isSome = true ∨
      ∃ c ∈ crates, c.name = name ∧
        ∃ l, lookupChanges cm name = some l ∧ l ≠ [] := by
  induction crates generalizing plan0 with
  | nil => simp
  | cons c cs ih =>
    simp only [List.foldl_cons]
    rw [ih]
    cases hl : lookupChanges cm c.name with
    | none =>
      rw [show planStep cm plan0 c = plan0 from by simp [planStep, hl]]
      constructor
      · rintro (h | h)
        · exact Or.inl h
        · exact Or.inr (by
            obtain ⟨d, hd, hdn, l, hll, hlne⟩ := h
            exact ⟨d, List.mem_cons_of_mem c hd, hdn, l, hll, hlne⟩)
      · rintro (h | ⟨d, hd, hdn, l, hll, hlne⟩)
        · exact Or.inl h
        · rcases List.mem_cons.mp hd with rfl | hd2
          · rw [hdn] at hl
            rw [hl] at hll
            exact absurd hll (by simp)
          · exact Or.inr ⟨d, hd2, hdn, l, hll, hlne⟩
    | some l0 =>
      by_cases hl0 : l0 = []
      · subst hl0
        rw [show planStep cm plan0 c = plan0 from by simp [planStep, hl]]
        constructor
        · rintro (h | h)
          · exact Or.inl h
          · exact Or.inr (by
              obtain ⟨d, hd, hdn, l, hll, hlne⟩ := h
              exact ⟨d, List.mem_cons_of_mem c hd, hdn, l, hll, hlne⟩)
        · rintro (h | ⟨d, hd, hdn, l, hll, hlne⟩)
          · exact Or.inl h
          · rcases List.mem_cons.mp hd with rfl | hd2
            · rw [hdn] at hl
              rw [hl] at hll
              injection hll with hll
              exact absurd hll.symm hlne
            · exact Or.inr ⟨d, hd2, hdn, l, hll, hlne⟩
      · rw [show planStep cm plan0 c =
            insertPlan plan0 c.name ⟨planned_new_version c.version l0, l0⟩
            from by simp [planStep, hl, hl0]]
        rw [lookupPlan_insertPlan]
        by_cases hn : c.name = name
        · subst hn
          simp only [if_pos rfl, Option.isSome_some]
          constructor
          · intro _
            exact Or.inr ⟨c, List.mem_cons_self c cs, rfl, l0, hl, hl0⟩
          · intro _
            exact Or.inl rfl
        · rw [if_neg hn]
          constructor
          · rintro (h | h)
            · exact Or.inl h
            · exact Or.inr (by
                obtain ⟨d, hd, hdn, l, hll, hlne⟩ := h
                exact ⟨d, List.mem_cons_of_mem c hd, hdn, l, hll, hlne⟩)
          · rintro (h | ⟨d, hd, hdn, l, hll, hlne⟩)
            · exact Or.inl h
            · rcases List.mem_cons.mp hd with rfl | hd2
              · exact absurd hdn hn
              · exact Or.inr ⟨d, hd2, hdn, l, hll, hlne⟩

/-- C3: a package name is a key of the computed `Plan` if and only if it
has at least one attributed `ChangeEntry` from the walked commit range
(in particular, a package with zero attributed changes is never a key). -/
theorem c3_plan_key_iff_attributed (ctx : InferredContext)
    (commits : List RawCommit) (name : String) :
    (lookupPlan (compute_plan ctx commits) name).isSome = true ↔
      attributedChanges ctx commits name ≠ [] := by
  unfold compute_plan attributedChanges
  rw [plan_fold_mem]
  constructor
  · rintro (h | ⟨c, _, _, l, hll, hlne⟩)
    · rw [lookupPlan_nil] at h
      simp at h
    · rw [hll]
      simpa using hlne
  · intro h
    right
    cases hlc : lookupChanges
        (collectChanges ctx.repo_root
          (sortRootsDesc (ctx.crates.map (fun c => (c.package_root, c))))
          commits) name with
    | none =>
      rw [hlc] at h
      simp at h
    | some l =>
      have hl0 : l ≠ [] := by
        rw [hlc] at h
        simpa using h
      have hk : (lookupChanges
          (collectChanges ctx.repo_root
            (sortRootsDesc (ctx.crates.map (fun c => (c.package_root, c))))
            commits) name).isSome = true := by
        rw [hlc]; rfl
      obtain ⟨r, hr, hrn⟩ := collectChanges_key _ _ _ _ hk
      rw [mem_sortRootsDesc] at hr
      obtain ⟨c, hc, hcr⟩ := List.mem_map.mp hr
      refine ⟨c, hc, ?_, l, rfl, hl0⟩
      rw [← hcr] at hrn
      exact hrn

/-- Witness for `c3_plan_key_iff_attributed`: a single-crate workspace
with one `fix` commit touching the crate yields a plan containing it. -/
theorem c3_plan_key_iff_attributed_witness :
    (lookupPlan
      (compute_plan
        { repo_root := ["r"], repo_name := "demo"
          crates := [{ name := "app", version := ⟨0, 1, 0⟩,
                       package_root := ["r"],
                       manifest := ⟨[], [], [], true⟩ }]
          main_crate := "app" }
        [{ subject := "fix: a bug".toList, message := "fix: a bug".toList,
           sha := "abcdef012345".toList, paths := [["src", "lib.rs"]] }])
      "app").isSome = true := by
  apply (c3_plan_key_iff_attributed _ _ _).mpr
  decide

theorem entry_modified_none (changed : String → Option String) (k : String)
    (hc : changed k = none) (it : DepItem) :
    entry_modified changed k it = false := by
  cases it <;> simp [entry_modified, hc]

theorem update_dep_item_flag (changed : String → Option String)
    (k v : String) (hv : changed k = some v) (it : DepItem) :
    (update_dep_item v it).2 = entry_modified changed k it := by
  cases it with
  | istr s => simp [update_dep_item, entry_modified, hv]
  | iinline kv =>
    cases hkv : hasVersionKey kv <;>
      simp [update_dep_item, entry_modified, hv, hkv]
  | itable kv =>
    cases hkv : hasVersionKey kv <;>
      simp [update_dep_item, entry_modified, hv, hkv]
  | iother id => simp [update_dep_item, entry_modified]

theorem update_dep_item_frame (v : String) (it : DepItem)
    (h : (update_dep_item v it).2 = false) : (update_dep_item v it).1 = it := by
  cases it with
  | istr s => simp [update_dep_item] at h
  | iinline kv =>
    cases hkv : hasVersionKey kv
    · simp [update_dep_item, hkv]
    · rw [show (update_dep_item v (DepItem.iinline kv)).2 = true from by
        simp [update_dep_item, hkv]] at h
      exact absurd h (by simp)
  | itable kv =>
    cases hkv : hasVersionKey kv
    · simp [update_dep_item, hkv]
    · rw [show (update_dep_item v (DepItem.itable kv)).2 = true from by
        simp [update_dep_item, hkv]] at h
      exact absurd h (by simp)
  | iother id => simp [update_dep_item]

theorem update_section_get (changed : String → Option String)
    (s : List (String × DepItem)) (i : Nat) :
    (update_section changed s).1[i]? =
      (s[i]?).map (fun p =>
        match changed p.1 with
        | none => p
        | some v => (p.1, (update_dep_item v p.2).1)) := by
  induction s generalizing i with
  | nil => simp [update_section]
  | cons p rest ih =>
    obtain ⟨k, it⟩ := p
    cases i with
    | zero => cases hc : changed k <;> simp [update_section, hc]
    | succ j => cases hc : changed k <;> simp [update_section, hc, ih]

theorem update_section_flag (changed : String → Option String)
    (s : List (String × DepItem)) :
    (update_section changed s).2 =
      s.any (fun p => entry_modified changed p.1 p.2) := by
  induction s with
  | nil => simp [update_section]
  | cons p rest ih =>
    obtain ⟨k, it⟩ := p
    cases hc : changed k with
    | none =>
      simp [update_section, hc, ih, entry_modified_none changed k hc]
    | some v =>
      simp [update_section, hc, ih, update_dep_item_flag changed k v hc]

theorem update_section_frame (changed : String → Option String)
    (s : List (String × DepItem))
    (h : (update_section changed s).2 = false) :
    (update_section changed s).1 = s := by
  induction s with
  | nil => simp [update_section]
  | cons p rest ih =>
    obtain ⟨k, it⟩ := p
    cases hc : changed k with
    | none =>
      rw [show (update_section changed ((k, it) :: rest)).2 =
          (update_section changed rest).2 from by simp [update_section, hc]]
        at h
      simp [update_section, hc, ih h]
    | some v =>
      have hsplit : (update_section changed ((k, it) :: rest)).2 =
          ((update_dep_item v it).2 || (update_section changed rest).2) := by
        simp [update_section, hc]
      rw [hsplit] at h
      rcases Bool.or_eq_false_iff.mp h with ⟨h1, h2⟩
      simp [update_section, hc, ih h2, update_dep_item_frame v it h1]

theorem lookupDepVal_setVersionKey_hit (kv : List (String × DepVal))
    (v : String) (h : hasVersionKey kv = true) :
    lookupDepVal (setVersionKey kv v) "version" = some (DepVal.vstr v) := by
  induction kv with
  | nil => simp [hasVersionKey] at h
  | cons p rest ih =>
    obtain ⟨a, b⟩ := p
    by_cases ha : a = "version"
    · subst ha
      simp [setVersionKey, lookupDepVal, List.find?_cons]
    · have h2 : hasVersionKey rest = true := by
        have h3 := h
        rw [hasVersionKey, List.any_cons] at h3
        rcases Bool.or_eq_true_iff.mp h3 with h4 | h4
        · exact absurd (by simpa using h4) ha
        · simpa [hasVersionKey] using h4
      have ih2 := ih h2
      simpa [setVersionKey, lookupDepVal, List.find?_cons, ha]
        using ih2

theorem lookupDepVal_setVersionKey_other (kv : List (String × DepVal))
    (v : String) (k2 : String) (h : k2 ≠ "version") :
    lookupDepVal (setVersionKey kv v) k2 = lookupDepVal kv k2 := by
  have hk : ¬ ("version" : String) = k2 := fun hh => h hh.symm
  induction kv with
  | nil => simp [setVersionKey]
  | cons p rest ih =>
    obtain ⟨a, b⟩ := p
    by_cases ha : a = "version"
    · subst ha
      simpa [setVersionKey, lookupDepVal, List.find?_cons, hk] using ih
    · by_cases hak : a = k2
      · subst hak
        simp [setVersionKey, lookupDepVal, List.find?_cons, ha]
      · simpa [setVersionKey, lookupDepVal, List.find?_cons, ha, hak]
          using ih

/-- C5: the dependency pass.  In every dependency section, an entry whose
key is a planned package has its declared version replaced when it is a
bare string or a table form carrying a `version` key (other keys of the
table preserved); every other entry is left unchanged; and the manifest
is written back in this pass exactly when at least one entry was
modified (when nothing was modified the document is unchanged). -/
theorem c5_dependency_rewrite (changed : String → Option String)
    (m : Manifest) :
    (∀ sec ∈ [Manifest.dependencies, Manifest.devDependencies,
              Manifest.buildDependencies],
      ∀ (i : Nat) (k : String) (it : DepItem),
        (sec m)[i]? = some (k, it) →
        (entry_modified changed k it = false →
          (sec (update_deps_in_doc changed m).1)[i]? = some (k, it)) ∧
        (∀ v, changed k = some v →
          (∀ s, it = DepItem.istr s →
            (sec (update_deps_in_doc changed m).1)[i]? =
              some (k, DepItem.istr v)) ∧
          (∀ kv, it = DepItem.iinline kv → hasVersionKey kv = true →
            (sec (update_deps_in_doc changed m).1)[i]? =
              some (k, DepItem.iinline (setVersionKey kv v))) ∧
          (∀ kv, it = DepItem.itable kv → hasVersionKey kv = true →
            (sec (update_deps_in_doc changed m).1)[i]? =
              some (k, DepItem.itable (setVersionKey kv v))))) ∧
    ((update_deps_in_doc changed m).2 = true ↔
      ∃ sec ∈ [Manifest.dependencies, Manifest.devDependencies,
               Manifest.buildDependencies],
        ∃ p ∈ sec m, entry_modified changed p.1 p.2 = true) ∧
    ((update_deps_in_doc changed m).2 = false →
      (update_deps_in_doc changed m).1 = m) ∧
    (∀ kv (v : String), hasVersionKey kv = true →
      lookupDepVal (setVersionKey kv v) "version" = some (DepVal.vstr v)) ∧
    (∀ kv (v k2 : String), k2 ≠ "version" →
      lookupDepVal (setVersionKey kv v) k2 = lookupDepVal kv k2) := by
  have hsec : ∀ sec ∈ [Manifest.dependencies, Manifest.devDependencies,
      Manifest.buildDependencies],
      sec (update_deps_in_doc changed m).1 =
        (update_section changed (sec m)).1 := by
    intro sec hs
    simp only [List.mem_cons, List.not_mem_nil, or_false] at hs
    rcases hs with rfl | rfl | rfl <;> simp [update_deps_in_doc]
  refine ⟨?_, ?_, ?_, lookupDepVal_setVersionKey_hit,
    lookupDepVal_setVersionKey_other⟩
  · intro sec hs i k it hget
    rw [hsec sec hs, update_section_get, hget]
    constructor
    · intro hmod
      cases hc : changed k with
      | none => simp [hc]
      | some v =>
        have hflag : (update_dep_item v it).2 = false := by
          rw [update_dep_item_flag changed k v hc it]
          exact hmod
        simp [hc, update_dep_item_frame v it hflag]
    · intro v hv
      refine ⟨?_, ?_, ?_⟩
      · rintro s rfl
        simp [hv, update_dep_item]
      · rintro kv rfl hkv
        simp [hv, update_dep_item, hkv]
      · rintro kv rfl hkv
        simp [hv, update_dep_item, hkv]
  · have hflag : (update_deps_in_doc changed m).2 =
        ((m.dependencies.any (fun p => entry_modified changed p.1 p.2) ||
          m.devDependencies.any (fun p => entry_modified changed p.1 p.2)) ||
         m.buildDependencies.any (fun p => entry_modified changed p.1 p.2)) := by
      simp [update_deps_in_doc, update_section_flag]
    rw [hflag]
    constructor
    · intro h
      rcases Bool.or_eq_true_iff.mp h with h12 | h3
      · rcases Bool.or_eq_true_iff.mp h12 with h1 | h2
        · obtain ⟨p, hp, hpm⟩ := List.any_eq_true.mp h1
          exact ⟨Manifest.dependencies, by simp, p, hp, hpm⟩
        · obtain ⟨p, hp, hpm⟩ := List.any_eq_true.mp h2
          exact ⟨Manifest.devDependencies, by simp, p, hp, hpm⟩
      · obtain ⟨p, hp, hpm⟩ := List.any_eq_true.mp h3
        exact ⟨Manifest.buildDependencies, by simp, p, hp, hpm⟩
    · rintro ⟨sec, hs, p, hp, hpm⟩
      simp only [List.mem_cons, List.not_mem_nil, or_false] at hs
      rcases hs with rfl | rfl | rfl
      · exact Bool.or_eq_true_iff.mpr (Or.inl (Bool.or_eq_true_iff.mpr
          (Or.inl (List.any_eq_true.mpr ⟨p, hp, hpm⟩))))
      · exact Bool.or_eq_true_iff.mpr (Or.inl (Bool.or_eq_true_iff.mpr
          (Or.inr (List.any_eq_true.mpr ⟨p, hp, hpm⟩))))
      · exact Bool.or_eq_true_iff.mpr (Or.inr
          (List.any_eq_true.mpr ⟨p, hp, hpm⟩))
  · intro h
    have hsplit : (update_deps_in_doc changed m).2 =
        (((update_section changed m.dependencies).2 ||
          (update_section changed m.devDependencies).2) ||
         (update_section changed m.buildDependencies).2) := by
      simp [update_deps_in_doc]
    rw [hsplit] at h
    rcases Bool.or_eq_false_iff.mp h with ⟨h12, h3⟩
    rcases Bool.or_eq_false_iff.mp h12 with ⟨h1, h2⟩
    have e1 := update_section_frame changed m.dependencies h1
    have e2 := update_section_frame changed m.devDependencies h2
    have e3 := update_section_frame changed m.buildDependencies h3
    cases m with
    | mk d dev b pkg =>
      simp only [update_deps_in_doc]
      simp only at e1 e2 e3
      simp [e1, e2, e3]

/-- Witness for `c5_dependency_rewrite` at a concrete input: a planned
bare-string dependency is rewritten and the manifest is flagged for
write-back. -/
theorem c5_dependency_rewrite_witness :
    (update_deps_in_doc
      (fun k => if k = "dep" then some "2.0.0" else none)
      ⟨[("dep", DepItem.istr "1.0.0")], [], [], true⟩).2 = true := by
  apply (c5_dependency_rewrite
      (fun k => if k = "dep" then some "2.0.0" else none)
      ⟨[("dep", DepItem.istr "1.0.0")], [], [], true⟩).2.1.mpr
  refine ⟨Manifest.dependencies, by simp, ("dep", DepItem.istr "1.0.0"),
    by simp, by decide⟩

/-- C2: when the designated main package is absent from the computed
plan, `run_prerelease` fails with an error and performs no mutation at
all: the effect trace is empty (no manifest rewrite, no changelog write,
no commit, no tag). -/
theorem c2_main_absent_aborts (ctx : InferredContext)
    (commits : List RawCommit) (dry_run has_token : Bool)
    (tags : List (List Char))
    (h : lookupPlan (compute_plan ctx commits) ctx.main_crate = none) :
    run_prerelease ctx commits dry_run has_token tags =
      ([], some "main crate has no changes since base tag; aborting prerelease prep") := by
  simp [run_prerelease, h]

/-- Witness for `c2_main_absent_aborts`: an empty commit range leaves the
main crate out of the plan and the pipeline aborts with no effects. -/
theorem c2_main_absent_aborts_witness :
    lookupPlan
        (compute_plan
          { repo_root := ["r"], repo_name := "demo"
            crates := [{ name := "app", version := ⟨0, 1, 0⟩,
                         package_root := ["r"],
                         manifest := ⟨[], [], [], true⟩ }]
            main_crate := "app" }
          []) "app" = none ∧
    run_prerelease
        { repo_root := ["r"], repo_name := "demo"
          crates := [{ name := "app", version := ⟨0, 1, 0⟩,
                       package_root := ["r"],
                       manifest := ⟨[], [], [], true⟩ }]
          main_crate := "app" }
        [] false true [] =
      ([], some "main crate has no changes since base tag; aborting prerelease prep") := by
  refine ⟨by decide, ?_⟩
  exact c2_main_absent_aborts _ [] false true [] (by decide)

theorem walkStep_fold (rel : List String) (tree : List TreeEntry)
    (acc : List TarEntry × List ZipEntry) :
    tree.foldl (walkStep rel) acc =
      (acc.1 ++ (tree.filter (keepEntry rel)).map
        (fun e => (⟨e.path, 0o644, e.content⟩ : TarEntry)),
       acc.2 ++ (tree.filter (keepEntry rel)).map
        (fun e => (⟨to_unix_path e.path, 0o644, e.content⟩ : ZipEntry))) := by
  induction tree generalizing acc with
  | nil => simp
  | cons e rest ih =>
    cases hk : keepEntry rel e with
    | false =>
      simp only [List.foldl_cons, walkStep, hk, List.filter_cons]
      simp [ih]
    | true =>
      simp only [List.foldl_cons]
      rw [show walkStep rel acc e =
          (acc.1 ++ [⟨e.path, 0o644, e.content⟩],
           acc.2 ++ [⟨to_unix_path e.path, 0o644, e.content⟩]) from by
        simp [walkStep, hk]]
      rw [ih]
      simp [hk]

/-- C7: for every tree and crate subtree, the produced tar and zip
archives hold exactly the same entry set: the zip entries are the tar
entries with the same unix-joined relative path, the same fixed `0o644`
permission and byte-identical content, and an entry occurs exactly for
the blobs under the crate subtree whose path avoids the skipped
(version-control metadata / build output) directory components. -/
theorem c7_archive_entry_sets (tree : List TreeEntry)
    (crate_rel : List String) :
    ((package_from_tree tree crate_rel).2 =
      (package_from_tree tree crate_rel).1.map
        (fun t => (⟨to_unix_path t.path, t.mode, t.content⟩ : ZipEntry))) ∧
    (∀ t ∈ (package_from_tree tree crate_rel).1, t.mode = 0o644) ∧
    (∀ (p : List String) (d : List Nat),
      (∃ t ∈ (package_from_tree tree crate_rel).1,
          t.path = p ∧ t.content = d) ↔
      (∃ e ∈ tree, e.path = p ∧ e.content = d ∧
          keepEntry (normalize_relative crate_rel) e = true)) := by
  have hclosed : package_from_tree tree crate_rel =
      ((tree.filter (keepEntry (normalize_relative crate_rel))).map
        (fun e => (⟨e.path, 0o644, e.content⟩ : TarEntry)),
       (tree.filter (keepEntry (normalize_relative crate_rel))).map
        (fun e => (⟨to_unix_path e.path, 0o644, e.content⟩ : ZipEntry))) := by
    unfold package_from_tree
    rw [walkStep_fold]
    simp
  rw [hclosed]
  refine ⟨?_, ?_, ?_⟩
  · simp [List.map_map]
  · intro t ht
    obtain ⟨e, _, rfl⟩ := List.mem_map.mp ht
    rfl
  · intro p d
    constructor
    · rintro ⟨t, ht, hp, hd⟩
      obtain ⟨e, he, rfl⟩ := List.mem_map.mp ht
      obtain ⟨hee, hke⟩ := List.mem_filter.mp he
      exact ⟨e, hee, hp, hd, hke⟩
    · rintro ⟨e, he, hp, hd, hke⟩
      exact ⟨⟨e.path, 0o644, e.content⟩,
        List.mem_map.mpr ⟨e, List.mem_filter.mpr ⟨he, hke⟩, rfl⟩, hp, hd⟩

/-- Witness for `c7_archive_entry_sets`: a two-entry tree where one path
is under `target/` and is excluded from both archives. -/
theorem c7_archive_entry_sets_witness :
    (∃ t ∈ (package_from_tree
        [⟨["crate", "src", "lib.rs"], true, [1, 2]⟩,
         ⟨["crate", "target", "out"], true, [3]⟩] ["crate"]).1,
      t.path = ["crate", "src", "lib.rs"] ∧ t.content = [1, 2]) := by
  apply ((c7_archive_entry_sets
      [⟨["crate", "src", "lib.rs"], true, [1, 2]⟩,
       ⟨["crate", "target", "out"], true, [3]⟩] ["crate"]).2.2
      ["crate", "src", "lib.rs"] [1, 2]).mpr
  refine ⟨⟨["crate", "src", "lib.rs"], true, [1, 2]⟩, by simp, rfl, rfl,
    by decide⟩

theorem upload_one_start (net : Nat → UpOutcome) (i : Nat) :
    upload_one net i 1 UPLOAD_RETRIES =
      match net 1 with
      | UpOutcome.success => ([UploadEv.attempt i 1], true)
      | _ =>
        match net 2 with
        | UpOutcome.success =>
            ([UploadEv.attempt i 1, UploadEv.sleep i 200,
              UploadEv.attempt i 2], true)
        | _ =>
          match net 3 with
          | UpOutcome.success =>
              ([UploadEv.attempt i 1, UploadEv.sleep i 200,
                UploadEv.attempt i 2, UploadEv.sleep i 400,
                UploadEv.attempt i 3], true)
          | _ =>
              ([UploadEv.attempt i 1, UploadEv.sleep i 200,
                UploadEv.attempt i 2, UploadEv.sleep i 400,
                UploadEv.attempt i 3], false) := by
  rcases h1 : net 1 <;> rcases h2 : net 2 <;> rcases h3 : net 3 <;>
    simp [upload_one, UPLOAD_RETRIES, h1, h2, h3]

theorem upload_one_tag_all (net : Nat → UpOutcome) (i : Nat) :
    (upload_one net i 1 UPLOAD_RETRIES).1.all
      (fun e => evFile e = i) = true := by
  rw [upload_one_start]
  rcases net 1 <;> rcases net 2 <;> rcases net 3 <;> simp [evFile]

theorem upload_one_tag (net : Nat → UpOutcome) (i : Nat) (e : UploadEv)
    (he : e ∈ (upload_one net i 1 UPLOAD_RETRIES).1) : evFile e = i := by
  have h := upload_one_tag_all net i
  rw [List.all_eq_true] at h
  simpa using h e he

theorem upload_one_count_le (net : Nat → UpOutcome) (i : Nat) :
    attemptCount i (upload_one net i 1 UPLOAD_RETRIES).1 ≤
      UPLOAD_RETRIES := by
  rw [upload_one_start]
  rcases net 1 <;> rcases net 2 <;> rcases net 3 <;>
    simp [attemptCount, List.filter, isAttempt, evFile, UPLOAD_RETRIES]

theorem upload_one_count_other (net : Nat → UpOutcome) (i j : Nat)
    (h : j ≠ i) :
    attemptCount j (upload_one net i 1 UPLOAD_RETRIES).1 = 0 := by
  rw [upload_one_start]
  have h2 : ¬ i = j := fun hh => h hh.symm
  rcases net 1 <;> rcases net 2 <;> rcases net 3 <;>
    simp [attemptCount, List.filter, isAttempt, evFile, h2]

theorem upload_one_sleeps_chain (net : Nat → UpOutcome) (i : Nat) :
    List.Chain' (fun x y => x < y)
      (sleepsFor i (upload_one net i 1 UPLOAD_RETRIES).1) := by
  rw [upload_one_start]
  rcases net 1 <;> rcases net 2 <;> rcases net 3 <;>
    simp [sleepsFor, List.filterMap]

theorem upload_one_sleeps_other (net : Nat → UpOutcome) (i j : Nat)
    (h : j ≠ i) :
    sleepsFor j (upload_one net i 1 UPLOAD_RETRIES).1 = [] := by
  rw [upload_one_start]
  have h2 : ¬ i = j := fun hh => h hh.symm
  rcases net 1 <;> rcases net 2 <;> rcases net 3 <;>
    simp [sleepsFor, List.filterMap, h2]

theorem upload_one_fail_iff (net : Nat → UpOutcome) (i : Nat) :
    (upload_one net i 1 UPLOAD_RETRIES).2 = false ↔
      (net 1 ≠ UpOutcome.success ∧ net 2 ≠ UpOutcome.success ∧
       net 3 ≠ UpOutcome.success) := by
  rw [upload_one_start]
  rcases h1 : net 1 <;> rcases h2 : net 2 <;> rcases h3 : net 3 <;>
    simp [h1, h2, h3]

theorem upload_one_count_fail (net : Nat → UpOutcome) (i : Nat)
    (h : (upload_one net i 1 UPLOAD_RETRIES).2 = false) :
    attemptCount i (upload_one net i 1 UPLOAD_RETRIES).1 =
      UPLOAD_RETRIES := by
  rw [upload_one_start] at h ⊢
  rcases h1 : net 1 <;> rcases h2 : net 2 <;> rcases h3 : net 3 <;>
    simp_all [attemptCount, List.filter, isAttempt, evFile, UPLOAD_RETRIES]

theorem attemptCount_append (j : Nat) (t1 t2 : List UploadEv) :
    attemptCount j (t1 ++ t2) = attemptCount j t1 + attemptCount j t2 := by
  simp [attemptCount, List.filter_append]

theorem attemptCount_zero_of_tags (j : Nat) (tr : List UploadEv)
    (h : ∀ e ∈ tr, evFile e ≠ j) : attemptCount j tr = 0 := by
  rw [attemptCount, List.length_eq_zero]
  rw [List.filter_eq_nil_iff]
  intro e he
  simp [h e he]

theorem sleepsFor_append (j : Nat) (t1 t2 : List UploadEv) :
    sleepsFor j (t1 ++ t2) = sleepsFor j t1 ++ sleepsFor j t2 := by
  simp [sleepsFor, List.filterMap_append]

theorem sleepsFor_nil_of_tags (j : Nat) (tr : List UploadEv)
    (h : ∀ e ∈ tr, evFile e ≠ j) : sleepsFor j tr = [] := by
  rw [sleepsFor, List.filterMap_eq_nil_iff]
  intro e he
  cases e with
  | attempt a b => rfl
  | sleep a ms =>
    have := h _ he
    simp [evFile] at this
    simp [this]

theorem upload_go_tags (net : Nat → Nat → UpOutcome) (files : List String) :
    ∀ (i0 : Nat), ∀ e ∈ (upload_go net i0 files).1, i0 ≤ evFile e := by
  induction files with
  | nil => intro i0 e he; simp [upload_go] at he
  | cons f fs ih =>
    intro i0 e he
    cases hseg : (upload_one (net i0) i0 1 UPLOAD_RETRIES).2 with
    | false =>
      rw [show (upload_go net i0 (f :: fs)).1 =
          (upload_one (net i0) i0 1 UPLOAD_RETRIES).1 from by
        simp [upload_go, hseg]] at he
      rw [upload_one_tag (net i0) i0 e he]
    | true =>
      rw [show (upload_go net i0 (f :: fs)).1 =
          (upload_one (net i0) i0 1 UPLOAD_RETRIES).1 ++
            (upload_go net (i0 + 1) fs).1 from by
        simp [upload_go, hseg]] at he
      rcases List.mem_append.mp he with h2 | h2
      · rw [upload_one_tag (net i0) i0 e h2]
      · have := ih (i0 + 1) e h2
        omega

/-- C9: every file's upload is attempted at most `UPLOAD_RETRIES = 3`
times, the backoff sleeps between a file's attempts strictly increase,
and when the whole step fails there is a file whose three attempts all
failed, after which no later file is attempted at all. -/
theorem c9_upload_retry_bound (net : Nat → Nat → UpOutcome)
    (files : List String) :
    (∀ i, attemptCount i (upload_assets_with_retry net files).1 ≤
      UPLOAD_RETRIES) ∧
    (∀ i, List.Chain' (fun x y => x < y)
      (sleepsFor i (upload_assets_with_retry net files).1)) ∧
    ((upload_assets_with_retry net files).2 = false →
      ∃ i, i < files.length ∧
        (∀ a, 1 ≤ a → a ≤ UPLOAD_RETRIES → net i a ≠ UpOutcome.success) ∧
        attemptCount i (upload_assets_with_retry net files).1 =
          UPLOAD_RETRIES ∧
        (∀ j, i < j → ∀ e ∈ (upload_assets_with_retry net files).1,
          evFile e ≠ j)) := by
  rw [upload_assets_with_retry]
  have main : ∀ (fs : List String) (i0 : Nat),
      (∀ i, attemptCount i (upload_go net i0 fs).1 ≤ UPLOAD_RETRIES) ∧
      (∀ i, List.Chain' (fun x y => x < y)
        (sleepsFor i (upload_go net i0 fs).1)) ∧
      ((upload_go net i0 fs).2 = false →
        ∃ i, i0 ≤ i ∧ i < i0 + fs.length ∧
          (net i 1 ≠ UpOutcome.success ∧ net i 2 ≠ UpOutcome.success ∧
           net i 3 ≠ UpOutcome.success) ∧
          attemptCount i (upload_go net i0 fs).1 = UPLOAD_RETRIES ∧
          (∀ j, i < j → ∀ e ∈ (upload_go net i0 fs).1, evFile e ≠ j)) := by
    intro fs
    induction fs with
    | nil =>
      intro i0
      refine ⟨?_, ?_, ?_⟩
      · intro i; simp [upload_go, attemptCount]
      · intro i; simp [upload_go, sleepsFor]
      · intro h; simp [upload_go] at h
    | cons f fs2 ih =>
      intro i0
      cases hseg : (upload_one (net i0) i0 1 UPLOAD_RETRIES).2 with
      | false =>
        have htr : (upload_go net i0 (f :: fs2)).1 =
            (upload_one (net i0) i0 1 UPLOAD_RETRIES).1 := by
          simp [upload_go, hseg]
        have hok : (upload_go net i0 (f :: fs2)).2 = false := by
          simp [upload_go, hseg]
        refine ⟨?_, ?_, ?_⟩
        · intro i
          rw [htr]
          by_cases hi : i = i0
          · rw [hi]; exact upload_one_count_le (net i0) i0
          · rw [upload_one_count_other (net i0) i0 i hi]
            simp [UPLOAD_RETRIES]
        · intro i
          rw [htr]
          by_cases hi : i = i0
          · rw [hi]; exact upload_one_sleeps_chain (net i0) i0
          · rw [upload_one_sleeps_other (net i0) i0 i hi]
            simp
        · intro _
          obtain ⟨n1, n2, n3⟩ := (upload_one_fail_iff (net i0) i0).mp hseg
          refine ⟨i0, le_rfl, by simp, ⟨n1, n2, n3⟩, ?_, ?_⟩
          · rw [htr]
            exact upload_one_count_fail (net i0) i0 hseg
          · intro j hj e he
            rw [htr] at he
            rw [upload_one_tag (net i0) i0 e he]
            omega
      | true =>
        obtain ⟨ihc, ihs, ihf⟩ := ih (i0 + 1)
        have htr : (upload_go net i0 (f :: fs2)).1 =
            (upload_one (net i0) i0 1 UPLOAD_RETRIES).1 ++
              (upload_go net (i0 + 1) fs2).1 := by
          simp [upload_go, hseg]
        have hok : (upload_go net i0 (f :: fs2)).2 =
            (upload_go net (i0 + 1) fs2).2 := by
          simp [upload_go, hseg]
        refine ⟨?_, ?_, ?_⟩
        · intro i
          rw [htr, attemptCount_append]
          by_cases hi : i = i0
          · rw [hi]
            have hz : attemptCount i0 (upload_go net (i0 + 1) fs2).1 = 0 := by
              apply attemptCount_zero_of_tags
              intro e he
              have := upload_go_tags net fs2 (i0 + 1) e he
              omega
            rw [hz]
            have := upload_one_count_le (net i0) i0
            omega
          · rw [upload_one_count_other (net i0) i0 i hi]
            have := ihc i
            omega
        · intro i
          rw [htr, sleepsFor_append]
          by_cases hi : i = i0
          · rw [hi]
            have hz : sleepsFor i0 (upload_go net (i0 + 1) fs2).1 = [] := by
              apply sleepsFor_nil_of_tags
              intro e he
              have := upload_go_tags net fs2 (i0 + 1) e he
              omega
            rw [hz, List.append_nil]
            exact upload_one_sleeps_chain (net i0) i0
          · rw [upload_one_sleeps_other (net i0) i0 i hi,
              List.nil_append]
            exact ihs i
        · intro h
          rw [hok] at h
          obtain ⟨i, hge, hlt, hnet, hcnt, hlater⟩ := ihf h
          refine ⟨i, by omega, by simp; omega, hnet, ?_, ?_⟩
          · rw [htr, attemptCount_append]
            have hz : attemptCount i
                (upload_one (net i0) i0 1 UPLOAD_RETRIES).1 = 0 := by
              apply attemptCount_zero_of_tags
              intro e he
              rw [upload_one_tag (net i0) i0 e he]
              omega
            rw [hz, hcnt]
            exact Nat.zero_add _
          · intro j hj e he
            rw [htr] at he
            rcases List.mem_append.mp he with h2 | h2
            · rw [upload_one_tag (net i0) i0 e h2]
              omega
            · exact hlater j hj e h2
  obtain ⟨hc, hs, hf⟩ := main files 0
  refine ⟨hc, hs, ?_⟩
  intro h
  obtain ⟨i, _, hlt, ⟨n1, n2, n3⟩, hcnt, hlater⟩ := hf h
  refine ⟨i, by omega, ?_, hcnt, hlater⟩
  intro a h1 h3
  have h4 : a ≤ 3 := h3
  interval_cases a
  · exact n1
  · exact n2
  · exact n3

/-- Witness for `c9_upload_retry_bound`: with a network that always
fails, a two-file upload fails at file 0 after exactly three attempts and
file 1 is never attempted. -/
theorem c9_upload_retry_bound_witness :
    (upload_assets_with_retry (fun _ _ => UpOutcome.httpFail)
        ["a.tar.gz", "a.zip"]).2 = false ∧
    ∃ i, i < (["a.tar.gz", "a.zip"] : List String).length ∧
      (∀ a, 1 ≤ a → a ≤ UPLOAD_RETRIES →
        (fun _ _ => UpOutcome.httpFail) i a ≠ UpOutcome.success) ∧
      attemptCount i (upload_assets_with_retry
        (fun _ _ => UpOutcome.httpFail) ["a.tar.gz", "a.zip"]).1 =
        UPLOAD_RETRIES ∧
      (∀ j, i < j → ∀ e ∈ (upload_assets_with_retry
          (fun _ _ => UpOutcome.httpFail) ["a.tar.gz", "a.zip"]).1,
        evFile e ≠ j) := by
  refine ⟨by decide, ?_⟩
  exact (c9_upload_retry_bound (fun _ _ => UpOutcome.httpFail)
    ["a.tar.gz", "a.zip"]).2.2 (by decide)

theorem natDigitsCore_ge : ∀ n fuel acc, n < fuel →
    natDigitsCore fuel n acc = natToDigits n ++ acc := by
  intro n
  induction n using Nat.strong_induction_on with
  | _ n ih =>
    intro fuel acc h
    match fuel with
    | 0 => exact absurd h (Nat.not_lt_zero n)
    | f + 1 =>
      by_cases h10 : n < 10
      · simp [natDigitsCore, natToDigits, h10]
      · have hdiv : n / 10 < n := Nat.div_lt_self (by omega) (by omega)
        have hL : natDigitsCore (f + 1) n acc =
            natDigitsCore f (n / 10) (Char.ofNat (48 + n % 10) :: acc) := by
          simp [natDigitsCore, h10]
        have hR : natToDigits n =
            natDigitsCore n (n / 10) [Char.ofNat (48 + n % 10)] := by
          rw [natToDigits]
          simp [natDigitsCore, h10]
        rw [hL, hR]
        rw [ih (n / 10) hdiv f (Char.ofNat (48 + n % 10) :: acc) (by omega)]
        rw [ih (n / 10) hdiv n [Char.ofNat (48 + n % 10)] (by omega)]
        simp

theorem natToDigits_lt (n : Nat) (h : n < 10) :
    natToDigits n = [Char.ofNat (48 + n)] := by
  simp [natToDigits, natDigitsCore, h, Nat.mod_eq_of_lt h]

theorem natToDigits_ge (n : Nat) (h : 10 ≤ n) :
    natToDigits n = natToDigits (n / 10) ++ [Char.ofNat (48 + n % 10)] := by
  have h10 : ¬ n < 10 := by omega
  have hdiv : n / 10 < n := Nat.div_lt_self (by omega) (by omega)
  rw [natToDigits]
  have hstep : natDigitsCore (n + 1) n [] =
      natDigitsCore n (n / 10) [Char.ofNat (48 + n % 10)] := by
    simp [natDigitsCore, h10]
  rw [hstep, natDigitsCore_ge (n / 10) n [Char.ofNat (48 + n % 10)]
    (by omega)]

theorem natToDigits_ne_nil (n : Nat) : natToDigits n ≠ [] := by
  by_cases h : n < 10
  · rw [natToDigits_lt n h]
    simp
  · rw [natToDigits_ge n (by omega)]
    simp

theorem char_digit_isDigit (m : Nat) (h : m < 10) :
    (Char.ofNat (48 + m)).isDigit = true := by
  interval_cases m <;> decide

theorem char_digit_toNat (m : Nat) (h : m < 10) :
    (Char.ofNat (48 + m)).toNat = 48 + m := by
  interval_cases m <;> decide

theorem natToDigits_all_digit (n : Nat) :
    (natToDigits n).all (fun c => c.isDigit) = true := by
  induction n using Nat.strong_induction_on with
  | _ n ih =>
    by_cases h : n < 10
    · rw [natToDigits_lt n h]
      simp [char_digit_isDigit n h]
    · have hdiv : n / 10 < n := Nat.div_lt_self (by omega) (by omega)
      rw [natToDigits_ge n (by omega)]
      rw [List.all_append]
      rw [ih (n / 10) hdiv]
      simp [char_digit_isDigit (n % 10) (Nat.mod_lt n (by omega))]

theorem parseDecimal_snoc (ds : List Char) (d : Char) :
    parseDecimal (ds ++ [d]) = parseDecimal ds * 10 + (d.toNat - 48) := by
  simp [parseDecimal, List.foldl_append]

theorem parseDecimal_natToDigits (n : Nat) :
    parseDecimal (natToDigits n) = n := by
  induction n using Nat.strong_induction_on with
  | _ n ih =>
    by_cases h : n < 10
    · rw [natToDigits_lt n h]
      have := char_digit_toNat n h
      simp [parseDecimal, this]
    · have hdiv : n / 10 < n := Nat.div_lt_self (by omega) (by omega)
      rw [natToDigits_ge n (by omega), parseDecimal_snoc, ih (n / 10) hdiv]
      have := char_digit_toNat (n % 10) (Nat.mod_lt n (by omega))
      rw [this]
      omega

theorem isPrefixOf_append_self (p t : List Char) :
    p.isPrefixOf (p ++ t) = true := by
  rw [List.isPrefixOf_iff_prefix]
  exact ⟨t, rfl⟩

theorem rcNumOf_render (base : SemVer) (n : Nat) (h : n < W32) :
    rcNumOf base (renderRcTag base n) = some n := by
  unfold rcNumOf renderRcTag
  rw [if_pos (isPrefixOf_append_self (rcTagStem base) (natToDigits n))]
  rw [List.drop_left]
  rw [if_pos ?hcond]
  case hcond =>
    rw [Bool.and_eq_true]
    constructor
    · simp [List.isEmpty_iff, natToDigits_ne_nil n]
    · exact natToDigits_all_digit n
  rw [parseDecimal_natToDigits n]
  rw [if_pos h]

theorem max_rc_init_le (base : SemVer) :
    ∀ (tags : List (List Char)) (init : Nat),
      init ≤ tags.foldl
        (fun m t =>
          match rcNumOf base t with
          | some n => max m n
          | none => m) init := by
  intro tags
  induction tags with
  | nil => intro init; simp
  | cons t ts ih =>
    intro init
    simp only [List.foldl_cons]
    cases rcNumOf base t with
    | none => exact ih init
    | some n => exact le_trans (Nat.le_max_left init n) (ih (max init n))

theorem le_max_rc (tags : List (List Char)) (base : SemVer)
    (t : List Char) (n : Nat) (ht : t ∈ tags)
    (hn : rcNumOf base t = some n) : n ≤ max_rc tags base := by
  unfold max_rc
  have main : ∀ (ts : List (List Char)) (init : Nat), t ∈ ts →
      n ≤ ts.foldl
        (fun m t2 =>
          match rcNumOf base t2 with
          | some k => max m k
          | none => m) init := by
    intro ts
    induction ts with
    | nil => intro init hmem; simp at hmem
    | cons t2 ts2 ih =>
      intro init hmem
      simp only [List.foldl_cons]
      rcases List.mem_cons.mp hmem with rfl | hmem2
      · rw [hn]
        exact le_trans (Nat.le_max_right init n) (max_rc_init_le base ts2 _)
      · cases rcNumOf base t2 <;> exact ih _ hmem2
  exact main tags 0 ht

theorem max_rc_none (tags : List (List Char)) (base : SemVer)
    (h : ∀ t ∈ tags, rcNumOf base t = none) : max_rc tags base = 0 := by
  unfold max_rc
  induction tags with
  | nil => rfl
  | cons t ts ih =>
    simp only [List.foldl_cons, h t (List.mem_cons_self t ts)]
    exact ih (fun t2 ht2 => h t2 (List.mem_cons_of_mem t ht2))

/-- C6 (amended): provided the maximum matching candidate number is below
`2 ^ 32 - 1` (so that the `u32` increment does not wrap), the chosen
candidate tag is `v<base>-rc.<n>` with `n` one greater than the maximum
`N` among existing tags matching the pattern (`n = 1` when none match),
and when the chosen tag name already exists as a tag reference the rc
pipeline fails before creating any tag. -/
theorem c6_next_rc_tag (tags : List (List Char)) (base : SemVer)
    (h : max_rc tags base < W32 - 1) :
    next_rc_tag tags base =
      (renderRcTag base (max_rc tags base + 1), max_rc tags base + 1) ∧
    ((∀ t ∈ tags, rcNumOf base t = none) →
      (next_rc_tag tags base).2 = 1) ∧
    (∀ (ctx : InferredContext) (plan : Plan) (cp : CratePlan),
      lookupPlan plan ctx.main_crate = some cp →
      (next_rc_tag tags cp.new_version).1 ∈ tags →
      execute_rc_trace tags ctx plan =
        ([], some "rc tag already exists (idempotency guard)")) := by
  have hW : W32 = 4294967296 := by norm_num [W32]
  have hmod : (max_rc tags base + 1) % W32 = max_rc tags base + 1 :=
    Nat.mod_eq_of_lt (by omega)
  refine ⟨?_, ?_, ?_⟩
  · unfold next_rc_tag
    rw [hmod]
  · intro hnone
    unfold next_rc_tag
    rw [max_rc_none tags base hnone]
    simp [W32]
  · intro ctx plan cp hmain hmem
    unfold execute_rc_trace
    rw [hmain]
    simp [ensure_tag_absent, hmem]

/-- Witness for `c6_next_rc_tag`: with the single existing tag
`v1.2.3-rc.2`, the chosen candidate is number 3. -/
theorem c6_next_rc_tag_witness :
    max_rc ["v1.2.3-rc.2".toList] ⟨1, 2, 3⟩ < W32 - 1 ∧
    next_rc_tag ["v1.2.3-rc.2".toList] ⟨1, 2, 3⟩ =
      (renderRcTag ⟨1, 2, 3⟩ (max_rc ["v1.2.3-rc.2".toList] ⟨1, 2, 3⟩ + 1),
       max_rc ["v1.2.3-rc.2".toList] ⟨1, 2, 3⟩ + 1) := by
  refine ⟨by decide, ?_⟩
  exact (c6_next_rc_tag ["v1.2.3-rc.2".toList] ⟨1, 2, 3⟩ (by decide)).1

/-- Counterexample to C6 as stated: with the existing tag
`v1.2.3-rc.4294967295` (the maximum matching `N` is `u32::MAX`), the
`u32` increment wraps and the chosen candidate number is 0, not
`max + 1 = 4294967296`. -/
theorem c6_next_rc_tag_counterexample :
    max_rc ["v1.2.3-rc.4294967295".toList] ⟨1, 2, 3⟩ = 4294967295 ∧
    (next_rc_tag ["v1.2.3-rc.4294967295".toList] ⟨1, 2, 3⟩).2 = 0 ∧
    (0 : Nat) ≠ 4294967295 + 1 := by
  refine ⟨by decide, by decide, by decide⟩

/-- C10 (amended): provided the maximum matching candidate number is
below `2 ^ 32 - 1` (no `u32` wraparound), the candidate tag computed by
`next_rc_tag` is never itself a member of the scanned tag set, so the
idempotency guard cannot fire on an unchanged tag set. -/
theorem c10_candidate_absent (tags : List (List Char)) (base : SemVer)
    (h : max_rc tags base < W32 - 1) :
    (next_rc_tag tags base).1 ∉ tags ∧
    ensure_tag_absent tags (next_rc_tag tags base).1 = none := by
  have hW : W32 = 4294967296 := by norm_num [W32]
  have hnext : next_rc_tag tags base =
      (renderRcTag base (max_rc tags base + 1), max_rc tags base + 1) := by
    unfold next_rc_tag
    rw [Nat.mod_eq_of_lt (by omega)]
  have habs : (next_rc_tag tags base).1 ∉ tags := by
    rw [hnext]
    intro hmem
    have hparse : rcNumOf base (renderRcTag base (max_rc tags base + 1)) =
        some (max_rc tags base + 1) :=
      rcNumOf_render base (max_rc tags base + 1) (by omega)
    have hle := le_max_rc tags base _ _ hmem hparse
    omega
  exact ⟨habs, by simp [ensure_tag_absent, habs]⟩

/-- Witness for `c10_candidate_absent` at a concrete tag set. -/
theorem c10_candidate_absent_witness :
    max_rc ["v1.2.3-rc.1".toList, "v1.2.3-rc.2".toList] ⟨1, 2, 3⟩
        < W32 - 1 ∧
    ensure_tag_absent ["v1.2.3-rc.1".toList, "v1.2.3-rc.2".toList]
      (next_rc_tag ["v1.2.3-rc.1".toList, "v1.2.3-rc.2".toList]
        ⟨1, 2, 3⟩).1 = none := by
  refine ⟨by decide, ?_⟩
  exact (c10_candidate_absent ["v1.2.3-rc.1".toList, "v1.2.3-rc.2".toList]
    ⟨1, 2, 3⟩ (by decide)).2

/-- Counterexample to C10 as stated: when the tag set contains both
`v1.2.3-rc.4294967295` (`u32::MAX`) and `v1.2.3-rc.0`, the wrapped
increment yields candidate number 0, whose tag name is already in the
scanned set, so the guard's error branch is reachable. -/
theorem c10_candidate_absent_counterexample :
    (next_rc_tag ["v1.2.3-rc.4294967295".toList, "v1.2.3-rc.0".toList]
        ⟨1, 2, 3⟩).1
      ∈ ["v1.2.3-rc.4294967295".toList, "v1.2.3-rc.0".toList] ∧
    ensure_tag_absent ["v1.2.3-rc.4294967295".toList, "v1.2.3-rc.0".toList]
      (next_rc_tag ["v1.2.3-rc.4294967295".toList, "v1.2.3-rc.0".toList]
        ⟨1, 2, 3⟩).1 ≠ none := by
  refine ⟨by decide, by decide⟩

/-- C8 (amended): validation succeeds exactly when the packaged list's
LENGTH equals the plan's key count, the packaged name set equals the
plan's key set, and every packaged crate carries both archive kinds
(the claim's version, which compares only the name SETS, fails when the
packaged list repeats a crate); and a validation failure gates the
upload: the rc pipeline then errors with no upload effect in its trace. -/
theorem c8_validate_gates_upload (plan : Plan)
    (packaged : List PackagedCrate)
    (_hnodup : (plan.map (fun p => p.1)).Nodup) :
    (validate_packaged plan packaged = none ↔
      (packaged.length = plan.length ∧
       nameSetEq (packaged.map (fun p => p.name))
         (plan.map (fun p => p.1)) = true ∧
       ∀ p ∈ packaged,
         p.files.any (fun f => pathExtension f = some "gz") = true ∧
         p.files.any (fun f => pathExtension f = some "zip") = true)) ∧
    (∀ (tags : List (List Char)) (ctx : InferredContext) (cp : CratePlan)
       (e : String),
      lookupPlan plan ctx.main_crate = some cp →
      validate_packaged plan
        (package_changed_crates ctx plan
          (next_rc_tag tags cp.new_version).2) = some e →
      (execute_rc_trace tags ctx plan).2 ≠ none ∧
      ∀ f, Effect.upload f ∉ (execute_rc_trace tags ctx plan).1) := by
  constructor
  · constructor
    · intro h
      unfold validate_packaged at h
      by_cases h1 : packaged.length ≠ plan.length
      · rw [if_pos h1] at h
        exact absurd h (by simp)
      · rw [if_neg h1] at h
        by_cases h2 : (!nameSetEq (packaged.map (fun p => p.name))
            (plan.map (fun p => p.1))) = true
        · rw [if_pos h2] at h
          exact absurd h (by simp)
        · rw [if_neg h2] at h
          split_ifs at h with h3
          · have ha : packaged.length = plan.length := not_not.mp h1
            have hb : nameSetEq (packaged.map (fun p => p.name))
                (plan.map (fun p => p.1)) = true := by
              cases hh : nameSetEq (packaged.map (fun p => p.name))
                  (plan.map (fun p => p.1)) with
              | false => exact absurd (by simp [hh]) h2
              | true => rfl
            refine ⟨ha, hb, ?_⟩
            intro p hp
            have hall := List.all_eq_true.mp h3 p hp
            rw [Bool.and_eq_true] at hall
            exact ⟨by simpa using hall.1, by simpa using hall.2⟩
    · rintro ⟨ha, hb, hc⟩
      unfold validate_packaged
      rw [if_neg (by simp [ha]), if_neg (by simp [hb]), if_pos ?_]
      apply List.all_eq_true.mpr
      intro p hp
      rw [Bool.and_eq_true]
      exact ⟨by simpa using (hc p hp).1, by simpa using (hc p hp).2⟩
  · intro tags ctx cp e hmain hval
    unfold execute_rc_trace
    rw [hmain]
    cases habs : ensure_tag_absent tags
        (next_rc_tag tags cp.new_version).1 with
    | some e2 => simp [habs]
    | none =>
      simp only [habs, hval]
      refine ⟨by simp, ?_⟩
      intro f
      simp

/-- Witness for `c8_validate_gates_upload`: a one-crate plan with a
matching packaged set carrying both archive kinds validates. -/
theorem c8_validate_gates_upload_witness :
    (([("a", (⟨⟨1, 0, 0⟩, []⟩ : CratePlan))] : Plan).map
      (fun p => p.1)).Nodup ∧
    (validate_packaged [("a", ⟨⟨1, 0, 0⟩, []⟩)]
        [⟨"a", ["x.tar.gz", "x.zip"]⟩] = none ↔
      (([(⟨"a", ["x.tar.gz", "x.zip"]⟩ : PackagedCrate)]).length =
         ([("a", (⟨⟨1, 0, 0⟩, []⟩ : CratePlan))] : Plan).length ∧
       nameSetEq ([(⟨"a", ["x.tar.gz", "x.zip"]⟩ : PackagedCrate)].map
           (fun p => p.name))
         (([("a", (⟨⟨1, 0, 0⟩, []⟩ : CratePlan))] : Plan).map
           (fun p => p.1)) = true ∧
       ∀ p ∈ [(⟨"a", ["x.tar.gz", "x.zip"]⟩ : PackagedCrate)],
         p.files.any (fun f => pathExtension f = some "gz") = true ∧
         p.files.any (fun f => pathExtension f = some "zip") = true)) := by
  refine ⟨by decide, ?_⟩
  exact (c8_validate_gates_upload [("a", ⟨⟨1, 0, 0⟩, []⟩)]
    [⟨"a", ["x.tar.gz", "x.zip"]⟩] (by decide)).1

/-- Counterexample to C8 as stated: a packaged list that repeats the
planned crate has the same name SET as the plan and both archive kinds
for every packaged crate, yet validation fails (the count check compares
the list length, not the set cardinality). -/
theorem c8_validate_counterexample :
    validate_packaged [("a", ⟨⟨1, 0, 0⟩, []⟩)]
      [⟨"a", ["x.tar.gz", "x.zip"]⟩, ⟨"a", ["x.tar.gz", "x.zip"]⟩]
      ≠ none ∧
    nameSetEq
      ([(⟨"a", ["x.tar.gz", "x.zip"]⟩ : PackagedCrate),
        ⟨"a", ["x.tar.gz", "x.zip"]⟩].map (fun p => p.name))
      (([("a", (⟨⟨1, 0, 0⟩, []⟩ : CratePlan))] : Plan).map (fun p => p.1))
      = true ∧
    ∀ p ∈ [(⟨"a", ["x.tar.gz", "x.zip"]⟩ : PackagedCrate),
           ⟨"a", ["x.tar.gz", "x.zip"]⟩],
      p.files.any (fun f => pathExtension f = some "gz") = true ∧
      p.files.any (fun f => pathExtension f = some "zip") = true := by
  refine ⟨by decide, by decide, by decide⟩

/-- C1: bump policy.  For a package with at least one attributed change:
with current major ≥ 1, any breaking entry gives a major bump resetting
minor and patch, else any feature entry gives a minor bump resetting
patch, else a patch bump; with current major = 0, any breaking entry
gives a minor bump resetting patch, else a patch bump (feature entries
getting no special treatment).  Increments are `u64` increments. -/
theorem c1_bump_policy (v : SemVer) (changes : List ChangeEntry)
    (_hne : changes ≠ []) :
    (1 ≤ v.major →
      ((∃ c ∈ changes, c.breaking = true) →
         planned_new_version v changes = ⟨(v.major + 1) % W64, 0, 0⟩) ∧
      ((∀ c ∈ changes, c.breaking = false) →
        (∃ c ∈ changes, c.kind = CommitKind.Feat) →
         planned_new_version v changes = ⟨v.major, (v.minor + 1) % W64, 0⟩) ∧
      ((∀ c ∈ changes, c.breaking = false) →
        (∀ c ∈ changes, c.kind ≠ CommitKind.Feat) →
         planned_new_version v changes = ⟨v.major, v.minor, (v.patch + 1) % W64⟩)) ∧
    (v.major = 0 →
      ((∃ c ∈ changes, c.breaking = true) →
         planned_new_version v changes = ⟨v.major, (v.minor + 1) % W64, 0⟩) ∧
      ((∀ c ∈ changes, c.breaking = false) →
         planned_new_version v changes = ⟨v.major, v.minor, (v.patch + 1) % W64⟩)) := by
  constructor
  · intro hmaj
    refine ⟨?_, ?_, ?_⟩
    · intro hbrk
      have : changes.any (fun c => c.breaking) = true := by
        simpa [List.any_eq_true] using hbrk
      simp [planned_new_version, decide_bump, applyBump, this, hmaj]
    · intro hnb hfeat
      have h1 : changes.any (fun c => c.breaking) = false := by
        simp [List.any_eq_false]
        intro c hc
        exact hnb c hc
      have h2 : changes.any (fun c => c.kind = CommitKind.Feat) = true := by
        simp only [List.any_eq_true, decide_eq_true_eq]
        exact hfeat
      simp [planned_new_version, decide_bump, applyBump, h1, h2, hmaj]
    · intro hnb hnf
      have h1 : changes.any (fun c => c.breaking) = false := by
        simp [List.any_eq_false]
        intro c hc
        exact hnb c hc
      have h2 : changes.any (fun c => c.kind = CommitKind.Feat) = false := by
        simp only [List.any_eq_false, decide_eq_true_eq]
        exact hnf
      simp [planned_new_version, decide_bump, applyBump, h1, h2, hmaj]
  · intro hmaj
    have hlt : ¬ 1 ≤ v.major := by omega
    refine ⟨?_, ?_⟩
    · intro hbrk
      have : changes.any (fun c => c.breaking) = true := by
        simpa [List.any_eq_true] using hbrk
      simp [planned_new_version, decide_bump, applyBump, this, hlt]
    · intro hnb
      have h1 : changes.any (fun c => c.breaking) = false := by
        simp [List.any_eq_false]
        intro c hc
        exact hnb c hc
      simp [planned_new_version, decide_bump, applyBump, h1, hlt]

/-- Witness for `c1_bump_policy` at a concrete input: version `1.2.3`
with a single breaking change bumps to `2.0.0`. -/
theorem c1_bump_policy_witness :
    ([({ kind := CommitKind.Breaking, subject := [], sha := [],
         breaking := true } : ChangeEntry)] ≠ ([] : List ChangeEntry)) ∧
    planned_new_version ⟨1, 2, 3⟩
      [{ kind := CommitKind.Breaking, subject := [], sha := [], breaking := true }] =
      ⟨(1 + 1) % W64, 0, 0⟩ := by
  refine ⟨by decide, ?_⟩
  exact ((c1_bump_policy ⟨1, 2, 3⟩
      [{ kind := CommitKind.Breaking, subject := [], sha := [], breaking := true }]
      (by decide)).1 (by decide)).1
    ⟨_, List.mem_singleton.mpr rfl, rfl⟩

end Asfship
